import Mathlib

/-!
# Shannon entropy of a byte stream (`main.go`)

A shallow embedding of the counting loops and of the entropy computation of
`main`, followed by the properties proved about them.

Conventions of the embedding.

* A byte is a `Fin 256`.  Go's `int` counters are modelled by `Nat`; they are
  64 bits wide in the program, so the model describes inputs shorter than
  `2^63` bytes, on which no counter wraps.
* `reader.Read(buffer)` is modelled by a script: the list of the results
  `(n, err)` that the successive calls return, each with the `n` bytes it put
  into `buffer`.  When the script is over, every further call returns
  `(0, io.EOF)`.
* The floating-point part of `main` is written once, over an arbitrary
  linearly ordered field `K` and an arbitrary function `log2 : K → K` standing
  for `math.Log2`.  Taking `K := ℝ` and `log2 := Real.logb 2` gives the
  computation over the real numbers, taking `K := ℚ` gives the probabilities
  as exact rationals.
* `strconv.Itoa` is the decimal digits of the number, after a `-` when it is
  negative; `fmt.Sprintf` on a floating-point verb is a parameter
  `sprintf : String → K → String`, given the format and the number.
* The operating system is a record `Sys`: `filepath.Base`, the outcome of
  `os.Stat` and `os.Open`, and the reads of standard input.  `os.Args` is the
  program name `arg0` and the list `args` of the arguments that follow it.
* An index expression out of range ends the process by a panic, which the Go
  run time reports on standard error before it exits with status 2.
-/

namespace Entropy

/-! ## Data model -/

/-- A byte value, `0 .. 255`. -/
abbrev Byte := Fin 256

/-- The non-nil values of the `err` result of `reader.Read`: `io.EOF`, or any
other error, with its text. -/
inductive ReadErr where
  | EOF : ReadErr
  | other (msg : String) : ReadErr
  deriving DecidableEq, Repr

/-- The result of one call `n, err := reader.Read(buffer)`: `data` is
`buffer[0:n]`, and `err = none` is Go's `nil`. -/
structure ReadResult where
  data : List Byte
  err : Option ReadErr
  deriving DecidableEq, Repr

/-- The byte count `n` returned by a read. -/
def ReadResult.n (r : ReadResult) : Nat := r.data.length

/-- The test `err != nil && err != io.EOF` of lines 108 and 127. -/
def fatal : Option ReadErr → Bool
  | some (ReadErr.other _) => true
  | _ => false

/-- The rendering `%v` of an error value. -/
def errText : Option ReadErr → String
  | none => "<nil>"
  | some ReadErr.EOF => "EOF"
  | some (ReadErr.other msg) => msg

/-- The two counters of `main`: the slice `freqCounters` and `byteCount`. -/
structure Counters where
  freqCounters : List Nat
  byteCount : Nat
  deriving DecidableEq, Repr

/-- The counters before the first read: `make([]int, 256)` and `0`
(lines 99 and 101). -/
def initCounters : Counters :=
  { freqCounters := List.replicate 256 0, byteCount := 0 }

/-! ## The counting loops -/

/-- One iteration of the loops at lines 119-122 and 135-138:
`freqCounters[buffer[i]]++; byteCount++`. -/
def tallyByte (s : Counters) (b : Byte) : Counters :=
  { freqCounters := s.freqCounters.set b.val (s.freqCounters.getD b.val 0 + 1),
    byteCount := s.byteCount + 1 }

/-- The loop `for i := 0; i < n; i++` over the bytes of one chunk. -/
def tallyChunk (s : Counters) (data : List Byte) : Counters :=
  data.foldl tallyByte s

/-- How the reading part of `main` ends: the process has exited with a
status, having written `stdout` and `stderr`, or the read loop has ended with
the counters `s`. -/
inductive ReadOutcome where
  | exit (status : Nat) (stdout stderr : String) : ReadOutcome
  | counted (s : Counters) : ReadOutcome
  deriving DecidableEq, Repr

/-- The message of lines 109 and 128. -/
def errorReading (me : String) (err : Option ReadErr) : String :=
  me ++ ": Error reading data: " ++ errText err ++ "\n"

/-- The message of line 114. -/
def noDataFound (me : String) : String :=
  me ++ ": No data found!\n"

/-- The loop `for { ... }` of lines 125-139, run on the reads that remain.
With the script over, the read returns `(0, io.EOF)` and the loop breaks. -/
def readLoop (me : String) : List ReadResult → Counters → ReadOutcome
  | [], s => ReadOutcome.counted s
  | r :: rest, s =>
    if fatal r.err then ReadOutcome.exit 1 "" (errorReading me r.err)
    else if r.n = 0 then ReadOutcome.counted s
    else readLoop me rest (tallyChunk s r.data)

/-- Lines 98-139 of `main`: the first read, the no-data test, the tally of the
first chunk and the read loop.  With an empty script the first read returns
`(0, io.EOF)`. -/
def mainRead (me : String) : List ReadResult → ReadOutcome
  | [] => ReadOutcome.exit 1 (noDataFound me) ""
  | r :: rest =>
    if fatal r.err then ReadOutcome.exit 1 "" (errorReading me r.err)
    else if r.n = 0 then ReadOutcome.exit 1 (noDataFound me) ""
    else readLoop me rest (tallyChunk initCounters r.data)

/-! ## The entropy computation -/

section Compute

variable (K : Type) [LinearOrderedField K]

/-- Lines 144-147: `probabilities[v] = float64(freqCounters[v]) / float64(byteCount)`
for `v = 0 .. 255`. -/
def probabilities (s : Counters) : List K :=
  (List.range 256).map fun v => (s.freqCounters.getD v 0 : K) / (s.byteCount : K)

variable {K}

/-- Lines 151-158: `math.Log2` of each probability that is `> 0`, and `0` for
the others. -/
def log2probabilities (log2 : K → K) (p : List K) : List K :=
  (List.range 256).map fun v =>
    if p.getD v 0 > 0 then log2 (p.getD v 0) else 0

/-- Lines 162-165: `entropy := 0.0` and then
`entropy -= probabilities[v] * log2probabilities[v]` for `v = 0 .. 255`. -/
def entropySum (p l : List K) : K :=
  (List.range 256).foldl (fun e v => e - p.getD v 0 * l.getD v 0) 0

/-- Lines 141-165: the entropy, in bits per byte, of the counters. -/
def entropy (log2 : K → K) (s : Counters) : K :=
  entropySum (probabilities K s) (log2probabilities log2 (probabilities K s))

/-- How `main` ends after argument handling: it has exited with a status, or
it has reached the `Printf` of line 168 with these values of `entropy` and
`byteCount`. -/
inductive Outcome (K : Type) where
  | exit (status : Nat) (stdout stderr : String) : Outcome K
  | result (entropy : K) (byteCount : Nat) : Outcome K

/-- Lines 98-165 of `main`, on a script of reads. -/
def mainOutcome (log2 : K → K) (me : String) (reads : List ReadResult) : Outcome K :=
  match mainRead me reads with
  | ReadOutcome.exit status out err => Outcome.exit status out err
  | ReadOutcome.counted s => Outcome.result (entropy log2 s) s.byteCount

end Compute

/-! ## Streams -/

/-- The relation `Delivers reads bs`: the successive reads hand over exactly
the bytes `bs`, in non-empty chunks and without a failure, and then the data
ends, by a read of 0 bytes or by the end of the script. -/
inductive Delivers : List ReadResult → List Byte → Prop where
  | done : Delivers [] []
  | stop (z : ReadResult) (rest : List ReadResult) :
      z.data = [] → fatal z.err = false → Delivers (z :: rest) []
  | chunk (r : ReadResult) (rest : List ReadResult) (bs : List Byte) :
      r.data ≠ [] → fatal r.err = false → Delivers rest bs →
      Delivers (r :: rest) (r.data ++ bs)

/-- The reads of a stream that delivers the chunks one by one, each with a
nil error, and then returns `(0, io.EOF)`. -/
def streamReads (chunks : List (List Byte)) : List ReadResult :=
  chunks.map (fun c => { data := c, err := none }) ++ [{ data := [], err := some ReadErr.EOF }]

/-- The number of occurrences of the byte value `v` in `bs`. -/
def occurrences (bs : List Byte) (v : Byte) : Nat := bs.count v

/-- The Shannon entropy of a frequency table as the specification words it:
with `p(v) = count(v)/total`, the sum `-Σ p(v)·log2(p(v))` taken only over the
byte values whose count is not zero, `total` being the sum of all the counts. -/
def shannonEntropy {K : Type} [LinearOrderedField K] (log2 : K → K) (count : Byte → Nat) : K :=
  - ∑ v in (Finset.univ : Finset Byte).filter (fun v => count v ≠ 0),
      ((count v : K) / ((∑ w : Byte, count w : Nat) : K))
        * log2 ((count v : K) / ((∑ w : Byte, count w : Nat) : K))

/-- The table `freqCounters` read as a function of the byte value. -/
def countOf (s : Counters) (v : Byte) : Nat := s.freqCounters.getD v.val 0

/-! ## Number formatting -/

/-- The function `strconv.Itoa`: the decimal digits of the number, after a `-`
when it is negative. -/
def itoa (num : Int) : String :=
  if num < 0 then "-" ++ Nat.repr num.natAbs else Nat.repr num.natAbs

/-- The loop `for i, digit := range str` of lines 23-28 and of lines 43-48,
from the byte offset `i` on, `len` being `len(str)`: a comma is written before
the rune at offset `i` when `i > 0 && (len(str)-i)%3 == 0`, and then the rune.
The result is what the loop appends to `result`. -/
def commaLoop (len : Nat) : Nat → List Char → List Char
  | _, [] => []
  | i, digit :: rest =>
    (if i > 0 ∧ (len - i) % 3 = 0 then [','] else [])
      ++ digit :: commaLoop len (i + digit.utf8Size) rest

/-- Lines 39-52: `formatIntWithCommas(num)`. -/
def formatIntWithCommas (num : Int) : String :=
  let str := itoa num
  if str.utf8ByteSize > 3 then String.mk (commaLoop str.utf8ByteSize 0 str.data) else str

/-- The function `strings.Split(s, sep)` for a separator of one character: the
pieces of `s` between the occurrences of `sep`; there is always at least one
piece. -/
def splitOn (sep : Char) : List Char → List (List Char)
  | [] => [[]]
  | c :: cs =>
    if c = sep then [] :: splitOn sep cs
    else match splitOn sep cs with
      | [] => [[c]]
      | p :: ps => (c :: p) :: ps

/-- Lines 15-36: `formatWithCommas(num, precision)`.  The parameter `sprintf`
stands for `fmt.Sprintf` applied to a format with one floating-point verb and
to the number. -/
def formatWithCommas {K : Type} (sprintf : String → K → String) (num : K)
    (precision : Int) : String :=
  let str := sprintf ("%." ++ itoa precision ++ "f") num
  let parts := splitOn '.' str.data
  let intPart := String.mk (parts.headD [])
  let intPart :=
    if intPart.utf8ByteSize > 3 then
      String.mk (commaLoop intPart.utf8ByteSize 0 intPart.data)
    else intPart
  if parts.length > 1 then intPart ++ "." ++ String.mk (parts.getD 1 []) else intPart

/-- The number that a list of decimal digits denotes. -/
def decimalValue (cs : List Char) : Nat :=
  cs.foldl (fun a c => 10 * a + (c.toNat - 48)) 0

/-! ## The whole program -/

/-- How the process ends: by `os.Exit(status)`, or by the return of `main`
with status 0, having written `stdout` and `stderr`; or by a run-time panic
that nothing recovers, with its message. -/
inductive Run where
  | exit (status : Nat) (stdout stderr : String) : Run
  | panicked (msg : String) : Run
  deriving DecidableEq, Repr

/-- The exit status of the process; the Go run time ends a panicking program
with status 2. -/
def Run.status : Run → Nat
  | Run.exit status _ _ => status
  | Run.panicked _ => 2

/-- What the process has written on standard output. -/
def Run.stdout : Run → String
  | Run.exit _ out _ => out
  | Run.panicked _ => ""

/-- What the process has written on standard error; for a panic, the line that
reports it (the goroutine trace that follows it is left out). -/
def Run.stderr : Run → String
  | Run.exit _ _ err => err
  | Run.panicked msg => "panic: " ++ msg ++ "\n"

/-- The operating system as `main` sees it: `filepath.Base`, whether
`os.IsNotExist` holds of the error of `os.Stat(name)`, the result of
`os.Open(name)` (the text of the error, or the reads that the file will
deliver), and the reads that standard input will deliver. -/
structure Sys where
  base : String → String
  isNotExist : String → Bool
  openFile : String → Except String (List ReadResult)
  stdin : List ReadResult

/-- The text written by `usage` (lines 56-60). -/
def usageMessage (me : String) : String :=
  "usage: " ++ me ++ " [ FILE ]\n\nDisplays the entropy (in total bits and bits/byte) of the data in FILE\n(or from stdin if FILE is omitted).\n"

/-- Lines 54-63: `usage()` writes its text on standard error and exits with
status 1. -/
def usage (me : String) : Run := Run.exit 1 "" (usageMessage me)

/-- The message of line 82. -/
def fileNotFound (me arg : String) : String :=
  me ++ ": File not found: \x27" ++ arg ++ "\x27\n"

/-- The message of line 88. -/
def errorOpening (me err : String) : String :=
  me ++ ": Error opening file: " ++ err ++ "\n"

/-- The message of the panic of an index expression `s[0]` on an empty `s`. -/
def indexPanic : String := "runtime error: index out of range [0] with length 0"

/-- What the argument handling of `main` (lines 69-96) decides, before any
file is touched. -/
inductive Input where
  | usage : Input
  | panicked (msg : String) : Input
  | stdin : Input
  | file (name : String) : Input
  deriving DecidableEq, Repr

/-- Lines 69-78 and 93-96, on the arguments that follow the program name
(`os.Args[1:]`, so that `len(os.Args)` is `args.length + 1`): the tests
`len(os.Args) > 2`, `len(os.Args) > 1` and `os.Args[1][0] == '-'`. -/
def selectInput (args : List String) : Input :=
  if args.length + 1 > 2 then Input.usage
  else match args with
    | [] => Input.stdin
    | arg :: _ =>
      match arg.data with
      | [] => Input.panicked indexPanic
      | c :: _ => if c = '-' then Input.usage else Input.file arg

section Print

variable {K : Type} [LinearOrderedField K]

/-- The first argument of the `Printf` of line 168, before formatting:
`entropy*float64(byteCount)`. -/
def totalBits (entropy : K) (byteCount : Nat) : K := entropy * (byteCount : K)

/-- The second argument, before formatting: `entropy*float64(byteCount)/8`. -/
def totalBytes (entropy : K) (byteCount : Nat) : K := entropy * (byteCount : K) / 8

/-- The third argument: `entropy/8*100`. -/
def percentage (entropy : K) : K := entropy / 8 * 100

/-- Lines 168-173: the text that the `Printf` writes, with its newline. -/
def outputLine (sprintf : String → K → String) (entropy : K) (byteCount : Nat) : String :=
  formatWithCommas sprintf (totalBits entropy byteCount) 2 ++ " bits ("
    ++ formatWithCommas sprintf (totalBytes entropy byteCount) 2 ++ " bytes) = "
    ++ sprintf "%.4f" (percentage entropy) ++ "% of "
    ++ formatIntWithCommas (byteCount : Int) ++ " bytes ("
    ++ sprintf "%.4f" entropy ++ " bits/byte)\n"

/-- The end of the process after lines 98-173: the exit of the reading part,
or the output line and the return of `main`. -/
def printResult (sprintf : String → K → String) : Outcome K → Run
  | Outcome.exit status out err => Run.exit status out err
  | Outcome.result entropy byteCount => Run.exit 0 (outputLine sprintf entropy byteCount) ""

/-- Lines 98-173 of `main`, on the reads of the selected input. -/
def mainCompute (log2 : K → K) (sprintf : String → K → String) (me : String)
    (reads : List ReadResult) : Run :=
  printResult sprintf (mainOutcome log2 me reads)

/-- The whole of `main`, on `os.Args[0]` and the arguments that follow it. -/
def main (sys : Sys) (log2 : K → K) (sprintf : String → K → String) (arg0 : String)
    (args : List String) : Run :=
  let me := sys.base arg0
  match selectInput args with
  | Input.usage => usage me
  | Input.panicked msg => Run.panicked msg
  | Input.stdin => mainCompute log2 sprintf me sys.stdin
  | Input.file name =>
    if sys.isNotExist name then Run.exit 2 "" (fileNotFound me name)
    else match sys.openFile name with
      | Except.error err => Run.exit 2 "" (errorOpening me err)
      | Except.ok reads => mainCompute log2 sprintf me reads

end Print

/-- A read with its end-of-stream indication replaced by a nil error. -/
def eofAsNil (r : ReadResult) : ReadResult :=
  { data := r.data, err := if r.err = some ReadErr.EOF then none else r.err }

/-! ## Lemmas on the counting loops -/

theorem tallyChunk_nil (s : Counters) : tallyChunk s [] = s := rfl

theorem tallyChunk_cons (s : Counters) (b : Byte) (bs : List Byte) :
    tallyChunk s (b :: bs) = tallyChunk (tallyByte s b) bs := rfl

theorem tallyChunk_append (s : Counters) (xs ys : List Byte) :
    tallyChunk s (xs ++ ys) = tallyChunk (tallyChunk s xs) ys := by
  simp [tallyChunk, List.foldl_append]

theorem tallyChunk_byteCount (s : Counters) (bs : List Byte) :
    (tallyChunk s bs).byteCount = s.byteCount + bs.length := by
  induction bs generalizing s with
  | nil => simp [tallyChunk]
  | cons b bs ih =>
    rw [tallyChunk_cons, ih]
    simp [tallyByte]
    omega

theorem tallyChunk_length (s : Counters) (bs : List Byte) :
    (tallyChunk s bs).freqCounters.length = s.freqCounters.length := by
  induction bs generalizing s with
  | nil => rfl
  | cons b bs ih =>
    rw [tallyChunk_cons, ih]
    simp [tallyByte]

theorem tallyByte_getD (s : Counters) (b : Byte) (v : Nat)
    (hlen : s.freqCounters.length = 256) :
    (tallyByte s b).freqCounters.getD v 0
      = s.freqCounters.getD v 0 + (if b.val = v then 1 else 0) := by
  have hb : b.val < s.freqCounters.length := by rw [hlen]; exact b.isLt
  simp only [tallyByte, List.getD_eq_getElem?_getD, List.getElem?_set]
  by_cases h : b.val = v
  · subst h
    simp [hb]
  · simp [h]

theorem tallyChunk_getD (s : Counters) (bs : List Byte) (v : Byte)
    (hlen : s.freqCounters.length = 256) :
    (tallyChunk s bs).freqCounters.getD v.val 0
      = s.freqCounters.getD v.val 0 + occurrences bs v := by
  induction bs generalizing s with
  | nil => simp [tallyChunk, occurrences]
  | cons b bs ih =>
    have hlen2 : (tallyByte s b).freqCounters.length = 256 := by
      simpa [tallyByte] using hlen
    rw [tallyChunk_cons, ih _ hlen2, tallyByte_getD s b v.val hlen]
    simp only [occurrences, List.count_cons, Fin.val_inj, beq_iff_eq]
    omega

theorem initCounters_length : initCounters.freqCounters.length = 256 :=
  List.length_replicate 256 0

theorem initCounters_getD (v : Nat) : initCounters.freqCounters.getD v 0 = 0 := by
  simp only [initCounters, List.getD_eq_getElem?_getD, List.getElem?_replicate]
  split <;> rfl

/-- The table after tallying `bs` from the initial counters holds, at every
byte value, the number of its occurrences in `bs`. -/
theorem tally_getD (bs : List Byte) (v : Byte) :
    (tallyChunk initCounters bs).freqCounters.getD v.val 0 = occurrences bs v := by
  rw [tallyChunk_getD _ _ _ initCounters_length, initCounters_getD, Nat.zero_add]

theorem tally_byteCount (bs : List Byte) :
    (tallyChunk initCounters bs).byteCount = bs.length := by
  rw [tallyChunk_byteCount]
  exact Nat.zero_add _

theorem tally_length (bs : List Byte) :
    (tallyChunk initCounters bs).freqCounters.length = 256 := by
  rw [tallyChunk_length, initCounters_length]

/-- The read loop, on a stream that delivers `bs`, ends with `bs` tallied. -/
theorem readLoop_delivers (me : String) {reads : List ReadResult} {bs : List Byte}
    (h : Delivers reads bs) (s : Counters) :
    readLoop me reads s = ReadOutcome.counted (tallyChunk s bs) := by
  induction h generalizing s with
  | done => rfl
  | stop z rest hz hf => simp [readLoop, hf, ReadResult.n, hz, tallyChunk]
  | chunk r rest bs hr hf _ ih =>
    have hn : r.n ≠ 0 := by simpa [ReadResult.n] using hr
    simp only [readLoop, hf, hn, if_false, Bool.false_eq_true]
    rw [ih, tallyChunk_append]

/-- On a stream that delivers the non-empty `bs`, the reading part of `main`
ends with `bs` tallied from the initial counters. -/
theorem mainRead_delivers (me : String) {reads : List ReadResult} {bs : List Byte}
    (h : Delivers reads bs) (hne : bs ≠ []) :
    mainRead me reads = ReadOutcome.counted (tallyChunk initCounters bs) := by
  cases h with
  | done => exact absurd rfl hne
  | stop z rest hz hf => exact absurd rfl hne
  | chunk r rest bs hr hf hrest =>
    have hn : r.n ≠ 0 := by simpa [ReadResult.n] using hr
    simp only [mainRead, hf, hn, if_false, Bool.false_eq_true]
    rw [readLoop_delivers me hrest, tallyChunk_append]

/-! ## Lemmas on the entropy computation -/

section ComputeLemmas

variable {K : Type} [LinearOrderedField K]

theorem foldl_sub_eq (f : Nat → K) (l : List Nat) (a : K) :
    l.foldl (fun e v => e - f v) a = a - (l.map f).sum := by
  induction l generalizing a with
  | nil => simp
  | cons x xs ih =>
    simp only [List.foldl_cons, List.map_cons, List.sum_cons]
    rw [ih]
    ring

theorem sum_map_range (f : Nat → K) (n : Nat) :
    ((List.range n).map f).sum = ∑ i in Finset.range n, f i := by
  induction n with
  | zero => simp
  | succ n ih =>
    rw [List.range_succ, List.map_append, List.sum_append, ih, Finset.sum_range_succ]
    simp

theorem probabilities_getD (s : Counters) (v : Nat) (hv : v < 256) :
    (probabilities K s).getD v 0 = (s.freqCounters.getD v 0 : K) / (s.byteCount : K) := by
  simp only [probabilities, List.getD_eq_getElem?_getD, List.getElem?_map,
    List.getElem?_range hv, Option.map_some', Option.getD_some]

theorem log2probabilities_getD (log2 : K → K) (p : List K) (v : Nat) (hv : v < 256) :
    (log2probabilities log2 p).getD v 0
      = if p.getD v 0 > 0 then log2 (p.getD v 0) else 0 := by
  simp only [log2probabilities, List.getD_eq_getElem?_getD, List.getElem?_map,
    List.getElem?_range hv, Option.map_some', Option.getD_some]

theorem foldl_range_sub (f : Nat → K) (n : Nat) :
    (List.range n).foldl (fun e v => e - f v) 0 = - ∑ i in Finset.range n, f i := by
  rw [foldl_sub_eq, sum_map_range, zero_sub]

theorem entropySum_eq (p l : List K) :
    entropySum p l = - ∑ i in Finset.range 256, p.getD i 0 * l.getD i 0 :=
  foldl_range_sub (fun v => p.getD v 0 * l.getD v 0) 256

/-- The value of `entropy`, as a sum over the 256 byte values. -/
theorem entropy_eq_sum (log2 : K → K) (s : Counters) :
    entropy log2 s
      = - ∑ v : Byte, ((s.freqCounters.getD v.val 0 : K) / (s.byteCount : K))
          * (if (s.freqCounters.getD v.val 0 : K) / (s.byteCount : K) > 0
              then log2 ((s.freqCounters.getD v.val 0 : K) / (s.byteCount : K)) else 0) := by
  rw [entropy, entropySum_eq, Finset.sum_range]
  refine congrArg Neg.neg (Finset.sum_congr rfl fun v _ => ?_)
  rw [log2probabilities_getD _ _ _ v.isLt, probabilities_getD _ _ v.isLt]

/-- The value of `entropy` on the counters of `bs`, in terms of the numbers of
occurrences. -/
theorem entropy_tally (log2 : K → K) (bs : List Byte) :
    entropy log2 (tallyChunk initCounters bs)
      = - ∑ v : Byte, ((occurrences bs v : K) / (bs.length : K))
          * (if (occurrences bs v : K) / (bs.length : K) > 0
              then log2 ((occurrences bs v : K) / (bs.length : K)) else 0) := by
  rw [entropy_eq_sum]
  simp only [tally_getD, tally_byteCount]

theorem sum_occurrences (bs : List Byte) : ∑ v : Byte, occurrences bs v = bs.length := by
  induction bs with
  | nil => simp [occurrences]
  | cons b bs ih =>
    simp only [occurrences, List.count_cons, beq_iff_eq, List.length_cons] at ih ⊢
    rw [Finset.sum_add_distrib, ih]
    simp

end ComputeLemmas

/-! ## Lemmas on the entropy over the real numbers -/

section RealLemmas

open Real

theorem log_two_pos : 0 < Real.log 2 := Real.log_pos (by norm_num)

theorem log_256 : Real.log 256 = 8 * Real.log 2 := by
  have h : (256 : ℝ) = 2 ^ 8 := by norm_num
  rw [h, Real.log_pow]
  norm_num

/-- One term of the sum of `main`, with its guard, in terms of `negMulLog`. -/
theorem guarded_term (x : ℝ) (hx : 0 ≤ x) :
    x * (if x > 0 then Real.logb 2 x else 0) = - (negMulLog x / Real.log 2) := by
  by_cases h : x > 0
  · rw [if_pos h, Real.logb, negMulLog]
    ring
  · have h0 : x = 0 := le_antisymm (not_lt.mp h) hx
    subst h0
    simp

theorem sum_guarded (p : Byte → ℝ) (hp : ∀ v, 0 ≤ p v) :
    - ∑ v : Byte, p v * (if p v > 0 then Real.logb 2 (p v) else 0)
      = (∑ v : Byte, negMulLog (p v)) / Real.log 2 := by
  rw [Finset.sum_div, ← Finset.sum_neg_distrib]
  refine Finset.sum_congr rfl fun v _ => ?_
  rw [guarded_term _ (hp v), neg_neg]

theorem le_one_of_sum_one (p : Byte → ℝ) (hp : ∀ v, 0 ≤ p v) (h1 : ∑ v : Byte, p v = 1)
    (v : Byte) : p v ≤ 1 := by
  rw [← h1]
  exact Finset.single_le_sum (fun i _ => hp i) (Finset.mem_univ v)

theorem sum_negMulLog_nonneg (p : Byte → ℝ) (hp : ∀ v, 0 ≤ p v)
    (h1 : ∑ v : Byte, p v = 1) : 0 ≤ ∑ v : Byte, negMulLog (p v) :=
  Finset.sum_nonneg fun v _ => negMulLog_nonneg (hp v) (le_one_of_sum_one p hp h1 v)

theorem sum_weights : ∑ _v : Byte, (1 / 256 : ℝ) = 1 := by
  rw [Finset.sum_const, Finset.card_univ, Fintype.card_fin, nsmul_eq_mul]
  norm_num

/-- Jensen's inequality for `negMulLog` with the 256 weights `1/256`. -/
theorem sum_negMulLog_le (p : Byte → ℝ) (hp : ∀ v, 0 ≤ p v) (h1 : ∑ v : Byte, p v = 1) :
    ∑ v : Byte, negMulLog (p v) ≤ 8 * Real.log 2 := by
  have hw : ∑ _v : Byte, (1 / 256 : ℝ) = 1 := sum_weights
  have hj := concaveOn_negMulLog.le_map_sum (t := Finset.univ)
    (w := fun _ : Byte => (1 / 256 : ℝ)) (p := p)
    (fun _ _ => by norm_num) hw (fun v _ => hp v)
  simp only [smul_eq_mul, ← Finset.mul_sum, h1, mul_one] at hj
  have hv : negMulLog (1 / 256 : ℝ) = 1 / 256 * (8 * Real.log 2) := by
    rw [negMulLog, one_div, Real.log_inv, log_256]
    ring
  rw [hv] at hj
  linarith

/-- The equality case of Jensen's inequality. -/
theorem sum_negMulLog_eq_iff (p : Byte → ℝ) (hp : ∀ v, 0 ≤ p v) (h1 : ∑ v : Byte, p v = 1) :
    ∑ v : Byte, negMulLog (p v) = 8 * Real.log 2 ↔ ∀ v, p v = 1 / 256 := by
  have hw : ∑ _v : Byte, (1 / 256 : ℝ) = 1 := sum_weights
  have hj := strictConcaveOn_negMulLog.map_sum_eq_iff (t := Finset.univ)
    (w := fun _ : Byte => (1 / 256 : ℝ)) (p := p)
    (fun _ _ => by norm_num) hw (fun v _ => hp v)
  simp only [smul_eq_mul, ← Finset.mul_sum, h1, mul_one, Finset.mem_univ, true_implies] at hj
  have hv : negMulLog (1 / 256 : ℝ) = 1 / 256 * (8 * Real.log 2) := by
    rw [negMulLog, one_div, Real.log_inv, log_256]
    ring
  rw [hv] at hj
  rw [← hj]
  constructor
  · intro h
    rw [h]
  · intro h
    linarith

theorem negMulLog_eq_zero_iff (x : ℝ) (h0 : 0 ≤ x) :
    negMulLog x = 0 ↔ x = 0 ∨ x = 1 := by
  constructor
  · intro h
    rw [negMulLog, neg_mul, neg_eq_zero, mul_eq_zero] at h
    rcases h with h | h
    · exact Or.inl h
    · rcases Real.log_eq_zero.mp h with h | h | h
      · exact Or.inl h
      · exact Or.inr h
      · linarith
  · rintro (h | h) <;> simp [h]

theorem sum_negMulLog_eq_zero_iff (p : Byte → ℝ) (hp : ∀ v, 0 ≤ p v)
    (h1 : ∑ v : Byte, p v = 1) :
    ∑ v : Byte, negMulLog (p v) = 0 ↔ ∃ b, p b = 1 := by
  have hnn : ∀ v ∈ (Finset.univ : Finset Byte), 0 ≤ negMulLog (p v) :=
    fun v _ => negMulLog_nonneg (hp v) (le_one_of_sum_one p hp h1 v)
  rw [Finset.sum_eq_zero_iff_of_nonneg hnn]
  constructor
  · intro h
    by_contra hne
    push_neg at hne
    have hz : ∀ v, p v = 0 := by
      intro v
      rcases (negMulLog_eq_zero_iff _ (hp v)).mp (h v (Finset.mem_univ v)) with h | h
      · exact h
      · exact absurd h (hne v)
    simp [hz] at h1
  · rintro ⟨b, hb⟩ v _
    by_cases hvb : v = b
    · subst hvb
      simp [hb]
    · have hle : p v + p b ≤ 1 := by
        rw [← h1, ← Finset.sum_pair hvb]
        exact Finset.sum_le_sum_of_subset_of_nonneg (Finset.subset_univ _)
          (fun i _ _ => hp i)
      have hv0 : p v = 0 := le_antisymm (by linarith) (hp v)
      simp [hv0]

end RealLemmas

/-! ## The distribution of a byte sequence -/

section Distribution

variable {K : Type} [LinearOrderedField K]

theorem length_cast_pos {bs : List Byte} (hne : bs ≠ []) : (0 : K) < (bs.length : K) :=
  Nat.cast_pos.mpr (List.length_pos.mpr hne)

theorem prob_nonneg (bs : List Byte) (v : Byte) :
    (0 : K) ≤ (occurrences bs v : K) / (bs.length : K) :=
  div_nonneg (Nat.cast_nonneg _) (Nat.cast_nonneg _)

theorem occurrences_le_length (bs : List Byte) (v : Byte) : occurrences bs v ≤ bs.length :=
  List.count_le_length v bs

theorem prob_le_one (bs : List Byte) (v : Byte) :
    (occurrences bs v : K) / (bs.length : K) ≤ 1 :=
  div_le_one_of_le₀ (Nat.cast_le.mpr (occurrences_le_length bs v)) (Nat.cast_nonneg _)

theorem sum_prob {bs : List Byte} (hne : bs ≠ []) :
    ∑ v : Byte, (occurrences bs v : K) / (bs.length : K) = 1 := by
  rw [← Finset.sum_div, ← Nat.cast_sum, sum_occurrences]
  exact div_self (length_cast_pos hne).ne'

/-- On a stream that delivers the non-empty `bs`, `main` reaches its `Printf`
with the entropy of the counters of `bs` and with `byteCount = len(bs)`. -/
theorem mainOutcome_delivers (log2 : K → K) (me : String) {reads : List ReadResult}
    {bs : List Byte} (h : Delivers reads bs) (hne : bs ≠ []) :
    mainOutcome log2 me reads
      = Outcome.result (entropy log2 (tallyChunk initCounters bs)) bs.length := by
  simp only [mainOutcome, mainRead_delivers me h hne, tally_byteCount]

end Distribution

/-- Over the reals the entropy that `main` computes for `bs` is the sum of
`negMulLog` of the probabilities, divided by `log 2`. -/
theorem entropy_real (bs : List Byte) :
    entropy (Real.logb 2) (tallyChunk initCounters bs)
      = (∑ v : Byte, Real.negMulLog ((occurrences bs v : ℝ) / (bs.length : ℝ))) / Real.log 2 := by
  rw [entropy_tally]
  exact sum_guarded _ (fun v => prob_nonneg bs v)

theorem entropy_real_nonneg {bs : List Byte} (hne : bs ≠ []) :
    0 ≤ entropy (Real.logb 2) (tallyChunk initCounters bs) := by
  rw [entropy_real]
  exact div_nonneg (sum_negMulLog_nonneg _ (fun v => prob_nonneg bs v) (sum_prob hne))
    log_two_pos.le

theorem entropy_real_le {bs : List Byte} (hne : bs ≠ []) :
    entropy (Real.logb 2) (tallyChunk initCounters bs) ≤ 8 := by
  rw [entropy_real, div_le_iff₀ log_two_pos]
  exact sum_negMulLog_le _ (fun v => prob_nonneg bs v) (sum_prob hne)

theorem entropy_real_eq_eight_iff {bs : List Byte} (hne : bs ≠ []) :
    entropy (Real.logb 2) (tallyChunk initCounters bs) = 8
      ↔ ∀ v, (occurrences bs v : ℝ) / (bs.length : ℝ) = 1 / 256 := by
  rw [entropy_real, div_eq_iff log_two_pos.ne']
  exact sum_negMulLog_eq_iff _ (fun v => prob_nonneg bs v) (sum_prob hne)

theorem entropy_real_eq_zero_iff {bs : List Byte} (hne : bs ≠ []) :
    entropy (Real.logb 2) (tallyChunk initCounters bs) = 0
      ↔ ∃ b, (occurrences bs b : ℝ) / (bs.length : ℝ) = 1 := by
  rw [entropy_real, div_eq_iff log_two_pos.ne', zero_mul]
  exact sum_negMulLog_eq_zero_iff _ (fun v => prob_nonneg bs v) (sum_prob hne)

/-- A probability is 1 exactly when the input is that byte value repeated. -/
theorem prob_eq_one_iff {bs : List Byte} (hne : bs ≠ []) (b : Byte) :
    (occurrences bs b : ℝ) / (bs.length : ℝ) = 1 ↔ bs = List.replicate bs.length b := by
  rw [div_eq_one_iff_eq (length_cast_pos hne).ne', Nat.cast_inj, occurrences,
    List.count_eq_length, List.eq_replicate_iff]
  constructor
  · intro h
    exact ⟨rfl, fun x hx => (h x hx).symm⟩
  · intro h x hx
    exact (h.2 x hx).symm

/-- All probabilities are `1/256` exactly when all byte values occur equally
often. -/
theorem prob_uniform_iff {bs : List Byte} (hne : bs ≠ []) :
    (∀ v, (occurrences bs v : ℝ) / (bs.length : ℝ) = 1 / 256)
      ↔ ∀ v w, occurrences bs v = occurrences bs w := by
  have hpos : (0 : ℝ) < (bs.length : ℝ) := length_cast_pos hne
  constructor
  · intro h v w
    have hv := h v
    have hw := h w
    rw [div_eq_iff hpos.ne'] at hv hw
    exact Nat.cast_injective (R := ℝ) (hv.trans hw.symm)
  · intro h v
    have hsum : (bs.length : ℝ) = 256 * (occurrences bs v : ℝ) := by
      rw [← sum_occurrences bs, Nat.cast_sum, Finset.sum_congr rfl (fun w _ => by rw [h w v]),
        Finset.sum_const, Finset.card_univ, Fintype.card_fin, nsmul_eq_mul]
      norm_num
    rw [div_eq_iff hpos.ne', hsum]
    ring

/-! ## Streams and tables -/

theorem delivers_single (bs : List Byte) (hne : bs ≠ []) :
    Delivers [{ data := bs, err := none }] bs := by
  have h := Delivers.chunk { data := bs, err := none } [] [] hne rfl Delivers.done
  simpa using h

theorem list_sum_eq_sum_range (l : List Nat) :
    l.sum = ∑ i in Finset.range l.length, l.getD i 0 := by
  induction l with
  | nil => simp
  | cons x xs ih =>
    rw [List.length_cons, Finset.sum_range_succ', List.sum_cons, ih]
    simp [add_comm]

/-- The sum of a table of 256 entries is the sum of its entries over the byte
values. -/
theorem table_sum (s : Counters) (hlen : s.freqCounters.length = 256) :
    s.freqCounters.sum = ∑ v : Byte, countOf s v := by
  rw [list_sum_eq_sum_range, hlen, Finset.sum_range]
  rfl

section Refinement

variable {K : Type} [LinearOrderedField K]

/-- The slice `log2probabilities` does not depend on the values of `log2` at
arguments that are not positive: the guard keeps them from `log2`. -/
theorem log2probabilities_congr (f g : K → K) (hfg : ∀ x, 0 < x → f x = g x) (p : List K) :
    log2probabilities f p = log2probabilities g p := by
  unfold log2probabilities
  refine List.map_congr_left fun v _ => ?_
  by_cases h : p.getD v 0 > 0
  · rw [if_pos h, if_pos h, hfg _ h]
  · rw [if_neg h, if_neg h]

/-- The result of `entropy` does not depend on the values of `log2` at
arguments that are not positive. -/
theorem entropy_congr_log2 (f g : K → K) (hfg : ∀ x, 0 < x → f x = g x) (s : Counters) :
    entropy f s = entropy g s := by
  rw [entropy_eq_sum, entropy_eq_sum]
  refine congrArg Neg.neg (Finset.sum_congr rfl fun v _ => ?_)
  by_cases h : (s.freqCounters.getD v.val 0 : K) / (s.byteCount : K) > 0
  · rw [if_pos h, if_pos h, hfg _ h]
  · rw [if_neg h, if_neg h]

theorem entropy_eq_shannon (log2 : K → K) (s : Counters)
    (hlen : s.freqCounters.length = 256) (htotal : s.freqCounters.sum = s.byteCount)
    (hpos : s.byteCount ≠ 0) :
    entropy log2 s = shannonEntropy log2 (countOf s) := by
  have hn : (0 : K) < (s.byteCount : K) := Nat.cast_pos.mpr (Nat.pos_of_ne_zero hpos)
  rw [entropy_eq_sum, shannonEntropy, ← table_sum s hlen, htotal, Finset.sum_filter]
  refine congrArg Neg.neg (Finset.sum_congr rfl fun v _ => ?_)
  show _ = if countOf s v ≠ 0 then
    ((countOf s v : K) / (s.byteCount : K)) * log2 ((countOf s v : K) / (s.byteCount : K)) else 0
  show ((countOf s v : K) / (s.byteCount : K))
      * (if (countOf s v : K) / (s.byteCount : K) > 0
          then log2 ((countOf s v : K) / (s.byteCount : K)) else 0) = _
  by_cases hc : countOf s v = 0
  · simp [hc]
  · have hp : (countOf s v : K) / (s.byteCount : K) > 0 :=
      div_pos (Nat.cast_pos.mpr (Nat.pos_of_ne_zero hc)) hn
    rw [if_pos hp, if_pos hc]

end Refinement

/-! ## The claims on the entropy value -/

/-- C1: for every non-empty byte sequence, delivered by the reads in any
chunking, `main` reaches its `Printf` with an entropy that, over the real
numbers, is at least 0 and at most 8. -/
theorem entropy_in_range (me : String) (reads : List ReadResult) (bs : List Byte)
    (h : Delivers reads bs) (hne : bs ≠ []) :
    ∃ e : ℝ, mainOutcome (Real.logb 2) me reads = Outcome.result e bs.length
      ∧ 0 ≤ e ∧ e ≤ 8 :=
  ⟨_, mainOutcome_delivers _ me h hne, entropy_real_nonneg hne, entropy_real_le hne⟩

/-- Witness of C1: the two-byte input `AB` read in one chunk. -/
theorem entropy_in_range_witness :
    Delivers [{ data := [65, 66], err := none }] [65, 66] ∧ ([65, 66] : List Byte) ≠ [] ∧
    ∃ e : ℝ, mainOutcome (Real.logb 2) "entropy" [{ data := [65, 66], err := none }]
        = Outcome.result e 2 ∧ 0 ≤ e ∧ e ≤ 8 :=
  ⟨delivers_single _ (by decide), by decide,
    entropy_in_range "entropy" _ [65, 66] (delivers_single _ (by decide)) (by decide)⟩

/-- C2: for every frequency table of 256 counts whose total is `byteCount` and
is not zero, the value that `main` computes, with any function `log2` in the
place of `math.Log2`, is the Shannon entropy summed only over the byte values
with a non-zero count; and `log2` is never evaluated at 0: the slice
`log2probabilities` holds 0, whatever `log2` is, at every byte value whose
probability is 0, it holds `log2` of the probability at every byte value whose
probability is positive, and both the slice and the entropy are the same for
every function that agrees with `log2` on the positive arguments. -/
theorem entropy_refines_shannon {K : Type} [LinearOrderedField K] (log2 : K → K)
    (s : Counters) (hlen : s.freqCounters.length = 256)
    (htotal : s.freqCounters.sum = s.byteCount) (hpos : s.byteCount ≠ 0) :
    entropy log2 s = shannonEntropy log2 (countOf s)
      ∧ (∀ v : Byte, countOf s v = 0 →
          (probabilities K s).getD v.val 0 = 0
          ∧ (log2probabilities log2 (probabilities K s)).getD v.val 0 = 0)
      ∧ (∀ v : Byte, countOf s v ≠ 0 →
          0 < (probabilities K s).getD v.val 0
          ∧ (log2probabilities log2 (probabilities K s)).getD v.val 0
              = log2 ((probabilities K s).getD v.val 0))
      ∧ ∀ log2' : K → K, (∀ x, 0 < x → log2' x = log2 x) →
          log2probabilities log2' (probabilities K s)
              = log2probabilities log2 (probabilities K s)
          ∧ entropy log2' s = entropy log2 s := by
  have hn : (0 : K) < (s.byteCount : K) := Nat.cast_pos.mpr (Nat.pos_of_ne_zero hpos)
  refine ⟨entropy_eq_shannon log2 s hlen htotal hpos, fun v hv => ?_, fun v hv => ?_,
    fun log2' hagree => ⟨log2probabilities_congr log2' log2 hagree _,
      entropy_congr_log2 log2' log2 hagree s⟩⟩
  · have hp : (probabilities K s).getD v.val 0 = 0 := by
      rw [probabilities_getD s v.val v.isLt]
      have h0 : s.freqCounters.getD v.val 0 = 0 := hv
      rw [h0, Nat.cast_zero, zero_div]
    refine ⟨hp, ?_⟩
    rw [log2probabilities_getD log2 _ v.val v.isLt, hp, if_neg (lt_irrefl 0)]
  · have hp : 0 < (probabilities K s).getD v.val 0 := by
      rw [probabilities_getD s v.val v.isLt]
      exact div_pos (Nat.cast_pos.mpr (Nat.pos_of_ne_zero hv)) hn
    refine ⟨hp, ?_⟩
    rw [log2probabilities_getD log2 _ v.val v.isLt, if_pos hp]

/-- Witness of C2: the table of the one-byte input `A`, where 255 counts are
zero, over the reals, with a function that differs from the logarithm at 0. -/
theorem entropy_refines_shannon_witness :
    log2probabilities (fun x : ℝ => if 0 < x then Real.logb 2 x else 17)
        (probabilities ℝ { freqCounters := 1 :: List.replicate 255 0, byteCount := 1 })
      = log2probabilities (Real.logb 2)
        (probabilities ℝ { freqCounters := 1 :: List.replicate 255 0, byteCount := 1 })
    ∧ entropy (fun x : ℝ => if 0 < x then Real.logb 2 x else 17)
        { freqCounters := 1 :: List.replicate 255 0, byteCount := 1 }
      = entropy (Real.logb 2) { freqCounters := 1 :: List.replicate 255 0, byteCount := 1 } :=
  (entropy_refines_shannon (Real.logb 2)
    { freqCounters := 1 :: List.replicate 255 0, byteCount := 1 }
    (by rw [List.length_cons, List.length_replicate])
    (by rw [List.sum_cons, List.sum_replicate, smul_zero]; rfl) (by decide)).2.2.2
    (fun x : ℝ => if 0 < x then Real.logb 2 x else 17) (fun x hx => if_pos hx)

/-- C3: for every byte value `b` and every `n ≥ 1`, on the input `b` repeated
`n` times, in any chunking, `main` reaches its `Printf` with an entropy of
exactly 0 (and `byteCount = n`). -/
theorem repeated_byte_entropy_zero (me : String) (reads : List ReadResult) (b : Byte)
    (n : Nat) (hn : 1 ≤ n) (h : Delivers reads (List.replicate n b)) :
    mainOutcome (Real.logb 2) me reads = Outcome.result 0 n := by
  have hne : List.replicate n b ≠ [] := by
    intro h0
    have := congrArg List.length h0
    simp at this
    omega
  have hz : entropy (Real.logb 2) (tallyChunk initCounters (List.replicate n b)) = 0 :=
    (entropy_real_eq_zero_iff hne).mpr ⟨b, (prob_eq_one_iff hne b).mpr (by simp)⟩
  rw [mainOutcome_delivers _ me h hne, hz, List.length_replicate]

/-- Witness of C3: the input `AAAA` read in one chunk. -/
theorem repeated_byte_entropy_zero_witness :
    1 ≤ 4 ∧ Delivers [{ data := [65, 65, 65, 65], err := none }] (List.replicate 4 65) ∧
    mainOutcome (Real.logb 2) "entropy" [{ data := [65, 65, 65, 65], err := none }]
      = Outcome.result 0 4 :=
  ⟨by decide, delivers_single _ (by decide),
    repeated_byte_entropy_zero "entropy" _ 65 4 (by decide) (delivers_single _ (by decide))⟩

theorem length_of_equal_counts (bs : List Byte) (S : Finset Byte) (k : Nat)
    (hocc : ∀ v, occurrences bs v = if v ∈ S then k else 0) :
    bs.length = S.card * k := by
  rw [← sum_occurrences bs, Finset.sum_congr rfl (fun v _ => hocc v), Finset.sum_ite_mem,
    Finset.univ_inter, Finset.sum_const, smul_eq_mul]

theorem entropy_of_equal_counts (bs : List Byte) (S : Finset Byte) (k : Nat)
    (hS : 1 ≤ S.card) (hk : 1 ≤ k)
    (hocc : ∀ v, occurrences bs v = if v ∈ S then k else 0) :
    entropy (Real.logb 2) (tallyChunk initCounters bs) = Real.logb 2 S.card := by
  have hlen := length_of_equal_counts bs S k hocc
  have hN : (0 : ℝ) < (S.card : ℝ) := Nat.cast_pos.mpr hS
  have hk0 : (0 : ℝ) < (k : ℝ) := Nat.cast_pos.mpr hk
  have hterm : ∀ v : Byte, Real.negMulLog ((occurrences bs v : ℝ) / (bs.length : ℝ))
      = if v ∈ S then Real.negMulLog (1 / (S.card : ℝ)) else 0 := by
    intro v
    rw [hocc v, hlen]
    by_cases hv : v ∈ S
    · rw [if_pos hv, if_pos hv, Nat.cast_mul]
      congr 1
      field_simp
      ring
    · rw [if_neg hv, if_neg hv]
      simp
  rw [entropy_real, Finset.sum_congr rfl (fun v _ => hterm v), Finset.sum_ite_mem,
    Finset.univ_inter, Finset.sum_const, nsmul_eq_mul, Real.negMulLog, one_div, Real.log_inv,
    Real.logb]
  field_simp

/-- C4: for every `N ≥ 1` (necessarily `N ≤ 256`), every `k ≥ 1` and every
input in which the `N` byte values of a set `S` occur `k` times each and no
other value occurs, delivered in any chunking, `main` reaches its `Printf`
with the entropy `log2(N)` over the reals; with `N = 256` it is exactly 8. -/
theorem equal_counts_entropy (me : String) (reads : List ReadResult) (bs : List Byte)
    (S : Finset Byte) (N k : Nat) (h : Delivers reads bs) (hN : 1 ≤ N) (hk : 1 ≤ k)
    (hcard : S.card = N) (hocc : ∀ v, occurrences bs v = if v ∈ S then k else 0) :
    N ≤ 256
      ∧ mainOutcome (Real.logb 2) me reads = Outcome.result (Real.logb 2 N) bs.length
      ∧ (N = 256 → mainOutcome (Real.logb 2) me reads = Outcome.result 8 bs.length) := by
  subst hcard
  have hne : bs ≠ [] := by
    intro h0
    have hlen := length_of_equal_counts bs S k hocc
    rw [h0, List.length_nil] at hlen
    have : 1 ≤ S.card * k := Nat.mul_le_mul hN hk
    omega
  have hmain : mainOutcome (Real.logb 2) me reads
      = Outcome.result (Real.logb 2 S.card) bs.length := by
    rw [mainOutcome_delivers _ me h hne, entropy_of_equal_counts bs S k hN hk hocc]
  refine ⟨?_, hmain, fun h256 => ?_⟩
  · have hle := Finset.card_le_univ S
    rw [Fintype.card_fin] at hle
    exact hle
  · rw [hmain, h256]
    have h8 : Real.logb 2 ((256 : Nat) : ℝ) = 8 := by
      rw [Real.logb, Nat.cast_ofNat, log_256]
      field_simp [log_two_pos.ne']
    rw [h8]

theorem occurrences_pair (a b : Byte) (hab : a ≠ b) (v : Byte) :
    occurrences [a, b] v = if v ∈ ({a, b} : Finset Byte) then 1 else 0 := by
  simp only [occurrences, List.count_cons, List.count_nil, Finset.mem_insert,
    Finset.mem_singleton, beq_iff_eq]
  by_cases h1 : v = a
  · subst h1
    simp [Ne.symm hab]
  · by_cases h2 : v = b
    · subst h2
      simp [hab]
    · simp [h1, h2, Ne.symm h1, Ne.symm h2]

/-- Witness of C4: the input `AB`, two byte values once each, gives
`log2(2)`. -/
theorem equal_counts_entropy_witness :
    2 ≤ 256
      ∧ mainOutcome (Real.logb 2) "entropy" [{ data := [65, 66], err := none }]
          = Outcome.result (Real.logb 2 (2 : Nat)) 2
      ∧ (2 = 256 → mainOutcome (Real.logb 2) "entropy" [{ data := [65, 66], err := none }]
          = Outcome.result 8 2) :=
  equal_counts_entropy "entropy" [{ data := [65, 66], err := none }] [65, 66] {65, 66} 2 1
    (delivers_single _ (by decide)) (by decide) (by decide) (by decide)
    (occurrences_pair 65 66 (by decide))

/-- C5: for every non-empty input, in any chunking, the entropy with which
`main` reaches its `Printf` is, over the reals, equal to 8 if and only if all
256 byte values occur equally often, and equal to 0 if and only if the input is
one byte value repeated. -/
theorem entropy_extremes (me : String) (reads : List ReadResult) (bs : List Byte)
    (h : Delivers reads bs) (hne : bs ≠ []) :
    ∃ e : ℝ, mainOutcome (Real.logb 2) me reads = Outcome.result e bs.length
      ∧ (e = 8 ↔ ∀ v w : Byte, occurrences bs v = occurrences bs w)
      ∧ (e = 0 ↔ ∃ b : Byte, bs = List.replicate bs.length b) := by
  refine ⟨_, mainOutcome_delivers _ me h hne, ?_, ?_⟩
  · rw [entropy_real_eq_eight_iff hne, prob_uniform_iff hne]
  · rw [entropy_real_eq_zero_iff hne]
    exact exists_congr fun b => prob_eq_one_iff hne b

/-- Witness of C5: the input `AB` read in one chunk. -/
theorem entropy_extremes_witness :
    ∃ e : ℝ, mainOutcome (Real.logb 2) "entropy" [{ data := [65, 66], err := none }]
        = Outcome.result e 2
      ∧ (e = 8 ↔ ∀ v w : Byte, occurrences [65, 66] v = occurrences [65, 66] w)
      ∧ (e = 0 ↔ ∃ b : Byte, [65, 66] = List.replicate 2 b) :=
  entropy_extremes "entropy" _ [65, 66] (delivers_single _ (by decide)) (by decide)

/-! ## Order and chunking -/

theorem tallyByte_comm (s : Counters) (a b : Byte) :
    tallyByte (tallyByte s a) b = tallyByte (tallyByte s b) a := by
  by_cases hab : a = b
  · subst hab
    rfl
  · have hv : a.val ≠ b.val := fun h => hab (Fin.ext h)
    have hv2 : b.val ≠ a.val := fun h => hv h.symm
    simp only [tallyByte, List.getD_eq_getElem?_getD, List.getElem?_set_ne hv,
      List.getElem?_set_ne hv2]
    rw [List.set_comm _ _ _ hv]

theorem tallyChunk_perm {bs₁ bs₂ : List Byte} (hp : bs₁.Perm bs₂) (s : Counters) :
    tallyChunk s bs₁ = tallyChunk s bs₂ :=
  hp.foldl_eq' (fun x _ y _ z => tallyByte_comm z x y) s

/-- On a stream that delivers no byte, the reading part of `main` exits with
status 1 after printing the no-data message on standard output. -/
theorem mainRead_delivers_nil (me : String) {reads : List ReadResult}
    (h : Delivers reads []) :
    mainRead me reads = ReadOutcome.exit 1 (noDataFound me) "" := by
  generalize hbs : ([] : List Byte) = bs at h
  cases h with
  | done => rfl
  | stop z rest hz hf => simp [mainRead, hf, ReadResult.n, hz]
  | chunk r rest bs hr hf hrest =>
    exact absurd (List.append_eq_nil.mp hbs.symm).1 hr

theorem delivers_streamReads (chunks : List (List Byte)) (hc : ∀ c ∈ chunks, c ≠ []) :
    Delivers (streamReads chunks) chunks.flatten := by
  induction chunks with
  | nil => exact Delivers.stop _ _ rfl rfl
  | cons c cs ih =>
    have h := Delivers.chunk { data := c, err := none } (streamReads cs) cs.flatten
      (hc c (List.mem_cons_self c cs)) rfl (ih fun d hd => hc d (List.mem_cons_of_mem c hd))
    simpa [streamReads] using h

/-- C6: for every two byte sequences that are permutations of each other,
however each is chunked by the reads, the counting loops of `main` build the
same frequency table and byte count, and `main` ends in the same way, with the
same entropy. -/
theorem permutation_invariance {K : Type} [LinearOrderedField K] (log2 : K → K)
    (me : String) (reads₁ reads₂ : List ReadResult) (bs₁ bs₂ : List Byte)
    (h₁ : Delivers reads₁ bs₁) (h₂ : Delivers reads₂ bs₂) (hp : bs₁.Perm bs₂) :
    tallyChunk initCounters bs₁ = tallyChunk initCounters bs₂
      ∧ mainRead me reads₁ = mainRead me reads₂
      ∧ (bs₁ ≠ [] → ∃ s, mainRead me reads₁ = ReadOutcome.counted s
            ∧ mainRead me reads₂ = ReadOutcome.counted s)
      ∧ mainOutcome log2 me reads₁ = mainOutcome log2 me reads₂ := by
  have ht := tallyChunk_perm hp initCounters
  have hread : mainRead me reads₁ = mainRead me reads₂ := by
    by_cases hne : bs₁ = []
    · subst hne
      have h2 : bs₂ = [] := List.Perm.eq_nil hp.symm
      subst h2
      rw [mainRead_delivers_nil me h₁, mainRead_delivers_nil me h₂]
    · have hne2 : bs₂ ≠ [] := fun h0 => hne (List.Perm.eq_nil (h0 ▸ hp))
      rw [mainRead_delivers me h₁ hne, mainRead_delivers me h₂ hne2, ht]
  refine ⟨ht, hread, fun hne => ?_, ?_⟩
  · exact ⟨_, mainRead_delivers me h₁ hne, by rw [← hread, mainRead_delivers me h₁ hne]⟩
  · simp only [mainOutcome, hread]

/-- Witness of C6: `AB` read in one chunk and `BA` read in two. -/
theorem permutation_invariance_witness :
    tallyChunk initCounters [65, 66] = tallyChunk initCounters [66, 65]
      ∧ mainRead "entropy" [{ data := [65, 66], err := none }]
          = mainRead "entropy" (streamReads [[66], [65]])
      ∧ (([65, 66] : List Byte) ≠ [] →
          ∃ s, mainRead "entropy" [{ data := [65, 66], err := none }] = ReadOutcome.counted s
            ∧ mainRead "entropy" (streamReads [[66], [65]]) = ReadOutcome.counted s)
      ∧ mainOutcome (Real.logb 2) "entropy" [{ data := [65, 66], err := none }]
          = mainOutcome (Real.logb 2) "entropy" (streamReads [[66], [65]]) :=
  permutation_invariance (Real.logb 2) "entropy" _ _ [65, 66] [66, 65]
    (delivers_single _ (by decide)) (delivers_streamReads [[66], [65]] (by decide))
    (List.Perm.swap 66 65 [])

/-- C7: for every non-empty byte sequence and every splitting of it into
non-empty chunks, delivered by successive reads that are followed by a read of
0 bytes, the first-chunk processing and the read loop of `main` end with the
table and the count of one pass over the whole sequence; the result is that of
the single-chunk reading. -/
theorem chunking_invariance (me : String) (bs : List Byte) (chunks : List (List Byte))
    (hne : bs ≠ []) (hc : ∀ c ∈ chunks, c ≠ []) (hflat : chunks.flatten = bs) :
    mainRead me (streamReads chunks) = ReadOutcome.counted (tallyChunk initCounters bs)
      ∧ mainRead me (streamReads chunks) = mainRead me (streamReads [bs]) := by
  have h1 : Delivers (streamReads chunks) bs := hflat ▸ delivers_streamReads chunks hc
  have h2 : Delivers (streamReads [bs]) bs := by
    have h := delivers_streamReads [bs] (by simpa using hne)
    simpa using h
  rw [mainRead_delivers me h1 hne, mainRead_delivers me h2 hne]
  exact ⟨rfl, rfl⟩

/-- Witness of C7: `ABC` delivered as `A` and then `BC`. -/
theorem chunking_invariance_witness :
    mainRead "entropy" (streamReads [[65], [66, 67]])
        = ReadOutcome.counted (tallyChunk initCounters [65, 66, 67])
      ∧ mainRead "entropy" (streamReads [[65], [66, 67]])
        = mainRead "entropy" (streamReads [[65, 66, 67]]) :=
  chunking_invariance "entropy" [65, 66, 67] [[65], [66, 67]] (by decide) (by decide) rfl

/-! ## Invariants of the counters -/

theorem sum_set_succ (l : List Nat) (i : Nat) (hi : i < l.length) :
    (l.set i (l.getD i 0 + 1)).sum = l.sum + 1 := by
  induction l generalizing i with
  | nil => simp at hi
  | cons x xs ih =>
    cases i with
    | zero => simp [List.sum_cons]; omega
    | succ j =>
      have hj : j < xs.length := by simpa using hi
      have := ih j hj
      simp only [List.set_cons_succ, List.sum_cons, List.getD_cons_succ] at this ⊢
      omega

/-- One tallied byte keeps the table at 256 entries and the sum of the table
equal to `byteCount`. -/
theorem tallyByte_invariant (s : Counters) (b : Byte)
    (hlen : s.freqCounters.length = 256) (hsum : s.freqCounters.sum = s.byteCount) :
    (tallyByte s b).freqCounters.length = 256
      ∧ (tallyByte s b).freqCounters.sum = (tallyByte s b).byteCount := by
  constructor
  · simpa [tallyByte] using hlen
  · simp only [tallyByte]
    rw [sum_set_succ _ _ (by rw [hlen]; exact b.isLt), hsum]

theorem tallyChunk_invariant (s : Counters) (bs : List Byte)
    (hlen : s.freqCounters.length = 256) (hsum : s.freqCounters.sum = s.byteCount) :
    (tallyChunk s bs).freqCounters.length = 256
      ∧ (tallyChunk s bs).freqCounters.sum = (tallyChunk s bs).byteCount := by
  induction bs generalizing s with
  | nil => exact ⟨hlen, hsum⟩
  | cons b bs ih =>
    rw [tallyChunk_cons]
    exact ih _ (tallyByte_invariant s b hlen hsum).1 (tallyByte_invariant s b hlen hsum).2

theorem initCounters_sum : initCounters.freqCounters.sum = initCounters.byteCount := by
  show (List.replicate 256 0).sum = 0
  rw [List.sum_replicate]
  rfl

theorem tally_sum (bs : List Byte) :
    (tallyChunk initCounters bs).freqCounters.sum = (tallyChunk initCounters bs).byteCount :=
  (tallyChunk_invariant initCounters bs initCounters_length initCounters_sum).2

/-- C8: on every stream, after each byte tallied (the state after the first
`k` bytes, for every `k`), the sum of the 256 entries of `freqCounters` equals
`byteCount`, which is `k`; and the read loop ends with counters whose sum and
whose `byteCount` are the total number of bytes delivered by the reads. -/
theorem counters_sum_invariant (me : String) (reads : List ReadResult) (bs : List Byte)
    (h : Delivers reads bs) (hne : bs ≠ []) :
    (∀ k, k ≤ bs.length →
        (tallyChunk initCounters (bs.take k)).freqCounters.length = 256
        ∧ (tallyChunk initCounters (bs.take k)).freqCounters.sum
            = (tallyChunk initCounters (bs.take k)).byteCount
        ∧ (tallyChunk initCounters (bs.take k)).byteCount = k)
      ∧ ∃ s, mainRead me reads = ReadOutcome.counted s
          ∧ s.freqCounters.sum = s.byteCount ∧ s.byteCount = bs.length := by
  refine ⟨fun k hk => ⟨tally_length _, tally_sum _, ?_⟩,
    _, mainRead_delivers me h hne, tally_sum bs, tally_byteCount bs⟩
  rw [tally_byteCount, List.length_take]
  omega

/-- Witness of C8: `ABA` delivered as `AB` and then `A`. -/
theorem counters_sum_invariant_witness :
    (∀ k, k ≤ ([65, 66, 65] : List Byte).length →
        (tallyChunk initCounters (([65, 66, 65] : List Byte).take k)).freqCounters.length = 256
        ∧ (tallyChunk initCounters (([65, 66, 65] : List Byte).take k)).freqCounters.sum
            = (tallyChunk initCounters (([65, 66, 65] : List Byte).take k)).byteCount
        ∧ (tallyChunk initCounters (([65, 66, 65] : List Byte).take k)).byteCount = k)
      ∧ ∃ s, mainRead "entropy" (streamReads [[65, 66], [65]]) = ReadOutcome.counted s
          ∧ s.freqCounters.sum = s.byteCount
          ∧ s.byteCount = ([65, 66, 65] : List Byte).length :=
  counters_sum_invariant "entropy" (streamReads [[65, 66], [65]]) [65, 66, 65]
    (delivers_streamReads [[65, 66], [65]] (by decide)) (by decide)

/-! ## The probabilities -/

/-- C9: for every non-empty input, in any chunking, the 256 probabilities that
`main` derives as `freqCounters[v]/byteCount`, taken as exact rationals, lie
each in `[0, 1]` and sum to exactly 1. -/
theorem probabilities_distribution (me : String) (reads : List ReadResult) (bs : List Byte)
    (h : Delivers reads bs) (hne : bs ≠ []) :
    ∃ s, mainRead me reads = ReadOutcome.counted s
      ∧ (probabilities ℚ s).length = 256
      ∧ (∀ p ∈ probabilities ℚ s, 0 ≤ p ∧ p ≤ 1)
      ∧ (probabilities ℚ s).sum = 1 := by
  refine ⟨_, mainRead_delivers me h hne, ?_, ?_, ?_⟩
  · rw [probabilities, List.length_map, List.length_range]
  · intro p hp
    rw [probabilities, List.mem_map] at hp
    obtain ⟨v, hv, rfl⟩ := hp
    have hv256 : v < 256 := List.mem_range.mp hv
    have hget := tally_getD bs ⟨v, hv256⟩
    simp only at hget
    rw [hget, tally_byteCount]
    exact ⟨prob_nonneg bs _, prob_le_one bs _⟩
  · rw [probabilities, sum_map_range, Finset.sum_range]
    simp only [tally_getD, tally_byteCount]
    exact sum_prob hne

/-- Witness of C9: the input `AB` read in one chunk. -/
theorem probabilities_distribution_witness :
    ∃ s, mainRead "entropy" [{ data := [65, 66], err := none }] = ReadOutcome.counted s
      ∧ (probabilities ℚ s).length = 256
      ∧ (∀ p ∈ probabilities ℚ s, 0 ≤ p ∧ p ≤ 1)
      ∧ (probabilities ℚ s).sum = 1 :=
  probabilities_distribution "entropy" _ [65, 66] (delivers_single _ (by decide)) (by decide)

/-! ## The no-data condition -/

theorem noDataFound_ne_empty (me : String) : noDataFound me ≠ "" := by
  intro h
  have hlen := congrArg String.length h
  rw [noDataFound, String.length_append] at hlen
  have h17 : (": No data found!\n" : String).length = 17 := by decide
  have h0 : ("" : String).length = 0 := by decide
  omega

/-- When the read loop exits, it has written nothing on standard output. -/
theorem readLoop_exit_stdout (me : String) (reads : List ReadResult) (s : Counters)
    (status : Nat) (out err : String)
    (h : readLoop me reads s = ReadOutcome.exit status out err) : out = "" := by
  induction reads generalizing s with
  | nil => simp [readLoop] at h
  | cons r rest ih =>
    rw [readLoop] at h
    split at h
    · injection h with _ hout _
      exact hout.symm
    · split at h
      · simp at h
      · exact ih _ h

/-- C10: on every input of length 0 (the first read returns 0 bytes, with no
error or with end-of-stream), `main` prints the "No data found!" message on
standard output and exits with status 1, without reaching the entropy
computation and its `Printf`; on every input of length at least 1 it reaches
the `Printf`, and whenever the first read returns at least one byte, whatever
follows, the message is not printed. -/
theorem no_data_condition {K : Type} [LinearOrderedField K] (log2 : K → K) (me : String)
    (reads : List ReadResult) (bs : List Byte) (h : Delivers reads bs) :
    (bs = [] → mainRead me reads = ReadOutcome.exit 1 (me ++ ": No data found!\n") ""
        ∧ mainOutcome log2 me reads = Outcome.exit 1 (me ++ ": No data found!\n") "")
      ∧ (bs ≠ [] → ∃ e, mainOutcome log2 me reads = Outcome.result e bs.length)
      ∧ (∀ (r : ReadResult) (rest : List ReadResult), r.data ≠ [] →
          ∀ (status : Nat) (out err : String),
            mainOutcome log2 me (r :: rest) = Outcome.exit status out err →
            out ≠ me ++ ": No data found!\n") := by
  refine ⟨fun h0 => ?_, fun hne => ⟨_, mainOutcome_delivers log2 me h hne⟩, ?_⟩
  · subst h0
    have hr := mainRead_delivers_nil me h
    refine ⟨hr, ?_⟩
    simp only [mainOutcome, hr]
    rfl
  · intro r rest hr status out err hout
    have hn : r.n ≠ 0 := by simpa [ReadResult.n] using hr
    have hempty : out = "" := by
      simp only [mainOutcome, mainRead, hn, if_false] at hout
      by_cases hf : fatal r.err = true
      · simp only [hf, if_true] at hout
        injection hout with _ ho _
        exact ho.symm
      · simp only [hf, if_false] at hout
        cases hloop : readLoop me rest (tallyChunk initCounters r.data) with
        | exit st o e =>
          rw [hloop] at hout
          injection hout with _ ho _
          rw [← ho]
          exact readLoop_exit_stdout me _ _ _ _ _ hloop
        | counted s =>
          rw [hloop] at hout
          cases hout
    rw [hempty]
    exact fun h0 => noDataFound_ne_empty me h0.symm

/-- Witness of C10: the empty input, whose first read returns `(0, io.EOF)`. -/
theorem no_data_condition_witness :
    Delivers [{ data := [], err := some ReadErr.EOF }] []
      ∧ mainOutcome (Real.logb 2) "entropy" [{ data := [], err := some ReadErr.EOF }]
          = Outcome.exit 1 "entropy: No data found!\n" "" :=
  ⟨Delivers.stop _ _ rfl rfl,
    ((no_data_condition (Real.logb 2) "entropy" [{ data := [], err := some ReadErr.EOF }] []
      (Delivers.stop _ _ rfl rfl)).1 rfl).2⟩

/-! ## Evaluation of the formatters -/

theorem formatIntWithCommas_examples :
    formatIntWithCommas 1234567 = "1,234,567" ∧ formatIntWithCommas 12 = "12"
      ∧ formatIntWithCommas 0 = "0" ∧ formatIntWithCommas 999 = "999"
      ∧ formatIntWithCommas 1000 = "1,000" := by
  decide

/-! ## Lemmas on decimal digits -/

/-- The ten digit characters. -/
theorem digitChar_mem (d : Nat) (hd : d < 10) : Nat.digitChar d ∈ "0123456789".data := by
  interval_cases d <;> decide

theorem digitChar_toNat (d : Nat) (hd : d < 10) : (Nat.digitChar d).toNat - 48 = d := by
  interval_cases d <;> decide

theorem digit_facts : ∀ c ∈ "0123456789".data,
    c.isDigit = true ∧ c.utf8Size = 1 ∧ c ≠ ',' ∧ c ≠ '.' ∧ c ≠ '-' := by
  decide

theorem toDigitsCore_mem (fuel : Nat) : ∀ (n : Nat) (acc : List Char),
    (∀ c ∈ acc, c ∈ "0123456789".data) →
    ∀ c ∈ Nat.toDigitsCore 10 fuel n acc, c ∈ "0123456789".data := by
  induction fuel with
  | zero => intro n acc hacc; simpa [Nat.toDigitsCore] using hacc
  | succ fuel ih =>
    intro n acc hacc
    have hd := digitChar_mem (n % 10) (Nat.mod_lt _ (by decide))
    have hacc2 : ∀ c ∈ Nat.digitChar (n % 10) :: acc, c ∈ "0123456789".data := by
      intro c hc
      rcases List.mem_cons.mp hc with h | h
      · rw [h]; exact hd
      · exact hacc c h
    simp only [Nat.toDigitsCore]
    split
    · exact hacc2
    · exact ih _ _ hacc2

theorem toDigitsCore_length_le (fuel : Nat) : ∀ (n : Nat) (acc : List Char),
    acc.length ≤ (Nat.toDigitsCore 10 fuel n acc).length := by
  induction fuel with
  | zero => intro n acc; simp [Nat.toDigitsCore]
  | succ fuel ih =>
    intro n acc
    simp only [Nat.toDigitsCore]
    split
    · simp
    · exact Nat.le_trans (by simp) (ih _ _)

theorem toDigitsCore_value (fuel : Nat) : ∀ (n : Nat) (acc : List Char), n < fuel →
    decimalValue (Nat.toDigitsCore 10 fuel n acc)
      = acc.foldl (fun a c => 10 * a + (c.toNat - 48)) n := by
  induction fuel with
  | zero => intro n acc h; omega
  | succ fuel ih =>
    intro n acc hn
    simp only [Nat.toDigitsCore]
    split
    · rename_i h0
      have hlt : n < 10 := by omega
      simp only [decimalValue, List.foldl_cons, digitChar_toNat (n % 10) (Nat.mod_lt _ (by decide))]
      congr 1
      omega
    · rename_i h0
      rw [ih _ _ (by omega)]
      simp only [List.foldl_cons, digitChar_toNat (n % 10) (Nat.mod_lt _ (by decide))]
      congr 1
      omega

/-- The digits of `Nat.repr n`: they are digit characters, there is at least
one, and they denote `n`. -/
theorem repr_digits (n : Nat) :
    (∀ c ∈ (Nat.repr n).data, c ∈ "0123456789".data) ∧ (Nat.repr n).data ≠ []
      ∧ decimalValue (Nat.repr n).data = n := by
  have hdata : (Nat.repr n).data = Nat.toDigitsCore 10 (n + 1) n [] := rfl
  rw [hdata]
  refine ⟨toDigitsCore_mem _ _ _ (by simp), ?_, ?_⟩
  · intro h
    have hlen := toDigitsCore_length_le (n + 1) n []
    have : 1 ≤ (Nat.toDigitsCore 10 (n + 1) n []).length := by
      simp only [Nat.toDigitsCore]
      split
      · simp
      · exact Nat.le_trans (by simp) (toDigitsCore_length_le _ _ _)
    rw [h] at this
    simp at this
  · rw [toDigitsCore_value _ _ _ (Nat.lt_succ_self n)]
    rfl

theorem itoa_natCast (n : Nat) : itoa (n : Int) = Nat.repr n := by
  simp [itoa]

theorem utf8ByteSize_ascii (cs : List Char) (h : ∀ c ∈ cs, c.utf8Size = 1) :
    (String.mk cs).utf8ByteSize = cs.length := by
  have hgo : ∀ l : List Char, (∀ c ∈ l, c.utf8Size = 1) →
      String.utf8ByteSize.go l = l.length := by
    intro l
    induction l with
    | nil => intro _; rfl
    | cons c cs ih =>
      intro hl
      simp only [String.utf8ByteSize.go, List.length_cons]
      rw [ih (fun x hx => hl x (List.mem_cons_of_mem _ hx)), hl c (List.mem_cons_self _ _)]
  exact hgo cs h

/-! ## Lemmas on the comma loop -/

/-- The loop on a whole number of triples, away from the start of the string:
every triple is written after a comma. -/
theorem commaLoop_triples (len k : Nat) : ∀ (cs : List Char) (i : Nat),
    (∀ c ∈ cs, c.utf8Size = 1) → cs.length = 3 * k → 0 < i → i + cs.length = len →
    ∃ gs : List (List Char), commaLoop len i cs = gs.flatMap (fun g => ',' :: g)
      ∧ gs.flatten = cs ∧ ∀ g ∈ gs, g.length = 3 := by
  induction k with
  | zero =>
    intro cs i _ hlen _ _
    have hnil : cs = [] := List.length_eq_zero.mp (by omega)
    subst hnil
    exact ⟨[], rfl, rfl, by simp⟩
  | succ k ih =>
    intro cs i hascii hlen hi hsum
    rcases cs with _ | ⟨a, _ | ⟨b, _ | ⟨c, rest⟩⟩⟩
    · simp at hlen
    · simp at hlen; omega
    · simp at hlen; omega
    · have ha : a.utf8Size = 1 := hascii a (by simp)
      have hb : b.utf8Size = 1 := hascii b (by simp)
      have hc : c.utf8Size = 1 := hascii c (by simp)
      simp only [List.length_cons] at hlen hsum
      obtain ⟨gs, h1, h2, h3⟩ := ih rest (i + 1 + 1 + 1)
        (fun x hx => hascii x (by simp [hx])) (by omega) (by omega) (by omega)
      refine ⟨[a, b, c] :: gs, ?_, ?_, ?_⟩
      · simp only [commaLoop, ha, hb, hc, h1, List.flatMap_cons]
        rw [if_pos ⟨hi, by omega⟩, if_neg (by omega), if_neg (by omega)]
        simp
      · simp [h2]
      · intro g hg
        rcases List.mem_cons.mp hg with h | h
        · rw [h]; rfl
        · exact h3 g h

/-- The loop on a whole non-empty string: a first group of one to three
characters, and then triples, each after a comma. -/
theorem commaLoop_groups (cs : List Char) (hascii : ∀ c ∈ cs, c.utf8Size = 1)
    (hne : cs ≠ []) :
    ∃ (first : List Char) (gs : List (List Char)),
      commaLoop cs.length 0 cs = first ++ gs.flatMap (fun g => ',' :: g)
      ∧ first ++ gs.flatten = cs ∧ 1 ≤ first.length ∧ first.length ≤ 3
      ∧ ∀ g ∈ gs, g.length = 3 := by
  have hmod : cs.length % 3 = 1 ∨ cs.length % 3 = 2 ∨ cs.length % 3 = 0 := by omega
  rcases cs with _ | ⟨a, rest⟩
  · exact absurd rfl hne
  have ha : a.utf8Size = 1 := hascii a (by simp)
  rcases hmod with h1 | h2 | h0
  · -- one leading character
    simp only [List.length_cons] at h1
    obtain ⟨gs, e1, e2, e3⟩ := commaLoop_triples (rest.length + 1) (rest.length / 3) rest 1
      (fun x hx => hascii x (by simp [hx])) (by omega) (by omega) (by omega)
    refine ⟨[a], gs, ?_, by simp [e2], by simp, by simp, e3⟩
    simp only [commaLoop, ha, List.length_cons, Nat.zero_add, e1]
    simp
  · rcases rest with _ | ⟨b, rest⟩
    · simp at h2
    have hb : b.utf8Size = 1 := hascii b (by simp)
    simp only [List.length_cons] at h2
    obtain ⟨gs, e1, e2, e3⟩ := commaLoop_triples (rest.length + 1 + 1) (rest.length / 3) rest
      (0 + 1 + 1) (fun x hx => hascii x (by simp [hx])) (by omega) (by omega) (by omega)
    refine ⟨[a, b], gs, ?_, by simp [e2], by simp, by simp, e3⟩
    simp only [commaLoop, ha, hb, List.length_cons, e1]
    rw [if_neg (by omega), if_neg (by omega)]
    simp
  · rcases rest with _ | ⟨b, _ | ⟨c, rest⟩⟩
    · simp at h0
    · simp at h0
    have hb : b.utf8Size = 1 := hascii b (by simp)
    have hc : c.utf8Size = 1 := hascii c (by simp)
    simp only [List.length_cons] at h0
    obtain ⟨gs, e1, e2, e3⟩ := commaLoop_triples (rest.length + 1 + 1 + 1) (rest.length / 3)
      rest (0 + 1 + 1 + 1) (fun x hx => hascii x (by simp [hx])) (by omega) (by omega)
      (by omega)
    refine ⟨[a, b, c], gs, ?_, by simp [e2], by simp, by simp, e3⟩
    simp only [commaLoop, ha, hb, hc, List.length_cons, e1]
    rw [if_neg (by omega), if_neg (by omega), if_neg (by omega)]
    simp

/-- Deleting the commas from groups that hold none gives the groups back. -/
theorem filter_groups (gs : List (List Char)) (h : ∀ g ∈ gs, ∀ c ∈ g, c ≠ ',') :
    (gs.flatMap (fun g => ',' :: g)).filter (fun c => c ≠ ',') = gs.flatten := by
  induction gs with
  | nil => rfl
  | cons g gs ih =>
    have hg : g.filter (fun c => c ≠ ',') = g :=
      List.filter_eq_self.mpr (fun c hc => by simpa using h g (List.mem_cons_self _ _) c hc)
    have hrest := ih (fun g' hg' => h g' (List.mem_cons_of_mem _ hg'))
    rw [List.flatMap_cons, List.flatten_cons, List.filter_append, hrest, List.filter_cons]
    simp only [ne_eq, not_true_eq_false, decide_False, Bool.false_eq_true, if_false]
    rw [hg]

theorem repr_ascii (n : Nat) : ∀ c ∈ (Nat.repr n).data, c.utf8Size = 1 :=
  fun c hc => (digit_facts c ((repr_digits n).1 c hc)).2.1

theorem repr_no_comma (n : Nat) : ∀ c ∈ (Nat.repr n).data, c ≠ ',' :=
  fun c hc => (digit_facts c ((repr_digits n).1 c hc)).2.2.1

theorem repr_no_dot (n : Nat) : '.' ∉ (Nat.repr n).data :=
  fun h => (digit_facts '.' ((repr_digits n).1 '.' h)).2.2.2.1 rfl

/-- The result of `formatIntWithCommas` on a natural number, in terms of the
digits of the number. -/
theorem formatIntWithCommas_natCast (n : Nat) :
    (formatIntWithCommas (n : Int)).data
      = if (Nat.repr n).data.length > 3
          then commaLoop (Nat.repr n).data.length 0 (Nat.repr n).data
          else (Nat.repr n).data := by
  have hsize : (Nat.repr n).utf8ByteSize = (Nat.repr n).data.length :=
    utf8ByteSize_ascii (Nat.repr n).data (repr_ascii n)
  simp only [formatIntWithCommas, itoa_natCast, hsize]
  split <;> rfl

/-- C11: for every non-negative integer `n`, `formatIntWithCommas(n)` is the
decimal representation of `n` with thousands separators: it is a first group
followed by groups that each come after a comma; the groups together are the
decimal digits of `n` (digit characters that denote `n`), which are also what
is left when the commas are deleted; the first group has 1 to 3 digits and
every later group exactly 3; with at most 3 digits there is no comma, the
result being the digits themselves; and `formatIntWithCommas(1234567)` is
`1,234,567`, `formatIntWithCommas(12)` is `12`. -/
theorem formatIntWithCommas_groups (n : Nat) :
    (∃ (first : List Char) (gs : List (List Char)),
        (formatIntWithCommas (n : Int)).data = first ++ gs.flatMap (fun g => ',' :: g)
        ∧ first ++ gs.flatten = (itoa (n : Int)).data
        ∧ 1 ≤ first.length ∧ first.length ≤ 3 ∧ (∀ g ∈ gs, g.length = 3))
      ∧ (∀ c ∈ (itoa (n : Int)).data, c.isDigit = true)
      ∧ decimalValue (itoa (n : Int)).data = n
      ∧ (formatIntWithCommas (n : Int)).data.filter (fun c => c ≠ ',') = (itoa (n : Int)).data
      ∧ ((itoa (n : Int)).length ≤ 3 →
          formatIntWithCommas (n : Int) = itoa (n : Int)
            ∧ ',' ∉ (formatIntWithCommas (n : Int)).data)
      ∧ formatIntWithCommas 1234567 = "1,234,567" ∧ formatIntWithCommas 12 = "12" := by
  have hdig := repr_digits n
  have hstruct : ∃ (first : List Char) (gs : List (List Char)),
      (formatIntWithCommas (n : Int)).data = first ++ gs.flatMap (fun g => ',' :: g)
      ∧ first ++ gs.flatten = (Nat.repr n).data
      ∧ 1 ≤ first.length ∧ first.length ≤ 3 ∧ (∀ g ∈ gs, g.length = 3) := by
    rw [formatIntWithCommas_natCast]
    by_cases hlen : (Nat.repr n).data.length > 3
    · rw [if_pos hlen]
      exact commaLoop_groups _ (repr_ascii n) hdig.2.1
    · rw [if_neg hlen]
      refine ⟨(Nat.repr n).data, [], by simp, by simp, ?_, by omega, by simp⟩
      exact List.length_pos.mpr hdig.2.1
  have hshort : (Nat.repr n).length ≤ 3 → formatIntWithCommas (n : Int) = Nat.repr n := by
    intro hle
    have hsize : (Nat.repr n).utf8ByteSize = (Nat.repr n).data.length :=
      utf8ByteSize_ascii (Nat.repr n).data (repr_ascii n)
    have hle2 : ¬ (Nat.repr n).data.length > 3 := by
      have : (Nat.repr n).length = (Nat.repr n).data.length := rfl
      omega
    simp only [formatIntWithCommas, itoa_natCast, hsize, if_neg hle2]
  rw [itoa_natCast]
  refine ⟨hstruct, fun c hc => (digit_facts c (hdig.1 c hc)).1, hdig.2.2, ?_, ?_,
    by decide, by decide⟩
  · obtain ⟨first, gs, h1, h2, _, _, _⟩ := hstruct
    have hnc : ∀ c ∈ first ++ gs.flatten, c ≠ ',' := by
      rw [h2]
      exact repr_no_comma n
    have hfirst : first.filter (fun c => c ≠ ',') = first :=
      List.filter_eq_self.mpr
        (fun c hc => by simpa using hnc c (List.mem_append_left _ hc))
    have hgs : ∀ g ∈ gs, ∀ c ∈ g, c ≠ ',' := fun g hg c hc =>
      hnc c (List.mem_append_right _ (List.mem_flatten.mpr ⟨g, hg, hc⟩))
    rw [h1, List.filter_append, hfirst, filter_groups gs hgs, h2]
  · intro hle
    refine ⟨hshort hle, ?_⟩
    rw [hshort hle]
    exact fun h => repr_no_comma n ',' h rfl

/-- Witness of C11: the number 1234567. -/
theorem formatIntWithCommas_groups_witness :
    formatIntWithCommas 1234567 = "1,234,567"
      ∧ (formatIntWithCommas ((1234567 : Nat) : Int)).data.filter (fun c => c ≠ ',')
          = (itoa ((1234567 : Nat) : Int)).data :=
  ⟨(formatIntWithCommas_groups 1234567).2.2.2.2.2.1, (formatIntWithCommas_groups 1234567).2.2.2.1⟩

/-- C18: the behaviour of `formatIntWithCommas` on negative integers whose
number of digits is a multiple of 3.  The sign counts as a character of the
string, so a comma is written right after it: `-123` gives `-,123` and
`-123456` gives `-,123,456`, which are not `-` followed by the formatting of
`123` and of `123456`. -/
theorem formatIntWithCommas_negative :
    formatIntWithCommas (-123) = "-,123"
      ∧ formatIntWithCommas (-123) ≠ "-" ++ formatIntWithCommas 123
      ∧ formatIntWithCommas (-123456) = "-,123,456"
      ∧ formatIntWithCommas (-123456) ≠ "-" ++ formatIntWithCommas 123456 := by
  decide

/-! ## Lemmas on `formatWithCommas` -/

theorem splitOn_no_sep (sep : Char) (cs : List Char) (h : sep ∉ cs) :
    splitOn sep cs = [cs] := by
  induction cs with
  | nil => rfl
  | cons c cs ih =>
    have hc : c ≠ sep := fun e => h (e ▸ List.mem_cons_self _ _)
    have hcs : sep ∉ cs := fun e => h (List.mem_cons_of_mem _ e)
    simp only [splitOn, if_neg hc, ih hcs]

theorem splitOn_append (sep : Char) (xs ys : List Char) (h : sep ∉ xs) :
    splitOn sep (xs ++ sep :: ys) = xs :: splitOn sep ys := by
  induction xs with
  | nil => simp [splitOn]
  | cons c cs ih =>
    have hc : c ≠ sep := fun e => h (e ▸ List.mem_cons_self _ _)
    have hcs : sep ∉ cs := fun e => h (List.mem_cons_of_mem _ e)
    rw [List.cons_append, splitOn, if_neg hc, ih hcs]

section Format

variable {K : Type}

/-- The result of `formatWithCommas` when the rendering of the number is the
digits of `n`, a point and a text without a point. -/
theorem formatWithCommas_point (sprintf : String → K → String) (num : K) (precision : Int)
    (n : Nat) (F : String) (hF : '.' ∉ F.data)
    (hstr : sprintf ("%." ++ itoa precision ++ "f") num = itoa (n : Int) ++ "." ++ F) :
    formatWithCommas sprintf num precision = formatIntWithCommas (n : Int) ++ "." ++ F := by
  have hdata : (Nat.repr n ++ "." ++ F).data = (Nat.repr n).data ++ '.' :: F.data := by
    simp [String.data_append]
  have hparts : splitOn '.' (Nat.repr n ++ "." ++ F).data = [(Nat.repr n).data, F.data] := by
    rw [hdata, splitOn_append _ _ _ (repr_no_dot n), splitOn_no_sep _ _ hF]
  rw [itoa_natCast] at hstr
  simp only [formatWithCommas, hstr, hparts, formatIntWithCommas, itoa_natCast]
  rfl

/-- The result of `formatWithCommas` when the rendering of the number is the
digits of `n` alone. -/
theorem formatWithCommas_whole (sprintf : String → K → String) (num : K) (precision : Int)
    (n : Nat) (hstr : sprintf ("%." ++ itoa precision ++ "f") num = itoa (n : Int)) :
    formatWithCommas sprintf num precision = formatIntWithCommas (n : Int) := by
  have hparts : splitOn '.' (Nat.repr n).data = [(Nat.repr n).data] :=
    splitOn_no_sep _ _ (repr_no_dot n)
  simp only [formatWithCommas, hstr, itoa_natCast, hparts, formatIntWithCommas]
  rfl

/-- C12: whenever the fixed-precision rendering of the number is the digit
string of a natural number `n` followed by a point and a fractional digit
string `F`, `formatWithCommas` returns `formatIntWithCommas(n)`, a point and
`F` unchanged; whenever the rendering is the digit string of `n` alone (the
case of precision 0), it returns `formatIntWithCommas(n)`; and with the
rendering `1234567.89` of `1234567.891` at precision 2 the result is
`1,234,567.89`. -/
theorem formatWithCommas_refines (sprintf : String → K → String) (num : K) (precision : Int)
    (n : Nat) (F : String) (hF : ∀ c ∈ F.data, c.isDigit = true) :
    (sprintf ("%." ++ itoa precision ++ "f") num = itoa (n : Int) ++ "." ++ F →
        formatWithCommas sprintf num precision = formatIntWithCommas (n : Int) ++ "." ++ F)
      ∧ (sprintf ("%." ++ itoa precision ++ "f") num = itoa (n : Int) →
        formatWithCommas sprintf num precision = formatIntWithCommas (n : Int))
      ∧ (sprintf "%.2f" num = "1234567.89" →
        formatWithCommas sprintf num 2 = "1,234,567.89") := by
  have hdot : '.' ∉ F.data := fun h => by
    have hd := hF '.' h
    revert hd
    decide
  refine ⟨formatWithCommas_point sprintf num precision n F hdot,
    formatWithCommas_whole sprintf num precision n, fun hex => ?_⟩
  have h := formatWithCommas_point sprintf num 2 1234567 "89" (by decide) hex
  rw [h]
  decide

/-- Witness of C12: a rendering of `1234567.891` at precision 2. -/
theorem formatWithCommas_refines_witness :
    formatWithCommas (fun _ _ => "1234567.89") (1234567.891 : ℚ) 2
      = formatIntWithCommas ((1234567 : Nat) : Int) ++ "." ++ "89" :=
  (formatWithCommas_refines (fun _ _ => "1234567.89") (1234567.891 : ℚ) 2 1234567 "89"
    (by decide)).1 (by decide)

end Format

/-! ## Argument handling -/

theorem selectInput_nil : selectInput [] = Input.stdin := rfl

theorem selectInput_many (a b : String) (rest : List String) :
    selectInput (a :: b :: rest) = Input.usage := by
  simp [selectInput]

/-- With one non-empty argument, the first character decides. -/
theorem selectInput_single (arg : String) (c : Char) (cs : List Char)
    (harg : arg.data = c :: cs) :
    selectInput [arg] = if c = '-' then Input.usage else Input.file arg := by
  simp [selectInput, harg]

/-- What holds of the argument handling on every argument list: usage when two
or more arguments follow the program name, or when the first character of the
single argument is `-`; standard input with no argument; the file with a single
non-empty argument whose first character is not `-`. -/
theorem selectInput_spec (args : List String) :
    (selectInput args = Input.usage
        ↔ 1 < args.length ∨ ∃ arg, args = [arg] ∧ arg.data.head? = some '-')
      ∧ (args = [] → selectInput args = Input.stdin)
      ∧ (∀ arg, args = [arg] → arg ≠ "" → arg.data.head? ≠ some '-' →
          selectInput args = Input.file arg) := by
  refine ⟨?_, fun h => h ▸ rfl, ?_⟩
  · rcases args with _ | ⟨a, _ | ⟨b, rest⟩⟩
    · simp [selectInput]
    · rcases hdata : a.data with _ | ⟨c, cs⟩
      · simp [selectInput, hdata, indexPanic]
      · rw [selectInput_single a c cs hdata]
        by_cases hc : c = '-'
        · simp [hc, hdata]
        · simp [hc, hdata]
    · simp [selectInput_many]
  · intro arg harg hne hdash
    subst harg
    rcases hdata : arg.data with _ | ⟨c, cs⟩
    · exact absurd (String.ext hdata) hne
    · rw [selectInput_single arg c cs hdata, if_neg]
      intro hc
      exact hdash (by rw [hdata, hc]; rfl)

/-- C13: the argument handling of `main` on the single argument that is the
empty string.  The test `os.Args[1][0] == '-'` indexes an empty string: the
program panics, and neither prints usage nor proceeds to open the argument as a
file. -/
theorem selectInput_empty_argument :
    selectInput [""] = Input.panicked indexPanic
      ∧ selectInput [""] ≠ Input.file "" ∧ selectInput [""] ≠ Input.usage := by
  decide

section Program

variable {K : Type} [LinearOrderedField K]

/-- C19: on the single argument that is the empty string, whatever the
environment, `main` ends in the index-out-of-range panic of `os.Args[1][0]`,
which is none of the documented outcomes. -/
theorem main_empty_argument (sys : Sys) (log2 : K → K) (sprintf : String → K → String)
    (arg0 : String) :
    main sys log2 sprintf arg0 [""]
        = Run.panicked "runtime error: index out of range [0] with length 0"
      ∧ ∀ (status : Nat) (out err : String),
          main sys log2 sprintf arg0 [""] ≠ Run.exit status out err := by
  have h : main sys log2 sprintf arg0 [""] = Run.panicked indexPanic := rfl
  refine ⟨h, fun status out err => ?_⟩
  rw [h]
  exact fun e => Run.noConfusion e

theorem main_file (sys : Sys) (log2 : K → K) (sprintf : String → K → String)
    (arg0 arg : String) (hne : arg ≠ "") (hdash : arg.data.head? ≠ some '-') :
    main sys log2 sprintf arg0 [arg]
      = if sys.isNotExist arg then Run.exit 2 "" (fileNotFound (sys.base arg0) arg)
        else match sys.openFile arg with
          | Except.error err => Run.exit 2 "" (errorOpening (sys.base arg0) err)
          | Except.ok reads => mainCompute log2 sprintf (sys.base arg0) reads := by
  have hsel := (selectInput_spec [arg]).2.2 arg rfl hne hdash
  simp only [main, hsel]

theorem main_panics_on_empty (sys : Sys) (log2 : K → K) (sprintf : String → K → String)
    (arg0 : String) :
    main sys log2 sprintf arg0 [""] = Run.panicked indexPanic := rfl

end Program

/-! ## File errors and read errors -/

section Errors

variable {K : Type} [LinearOrderedField K]

/-- What holds of the file errors: for every single non-empty argument that
does not begin with `-`, when the file does not exist `main` exits with status
2 by line 83, having written on standard error the message of line 82, which
contains the argument, and nothing on standard output; when the file exists
and cannot be opened it exits with status 2 by line 89 with the message of
line 88 and nothing on standard output.  Both exits come before any read. -/
theorem file_errors_nonempty (sys : Sys) (log2 : K → K) (sprintf : String → K → String)
    (arg0 arg : String) (hne : arg ≠ "") (hdash : arg.data.head? ≠ some '-') :
    (sys.isNotExist arg = true →
        main sys log2 sprintf arg0 [arg]
            = Run.exit 2 "" (sys.base arg0 ++ ": File not found: \x27" ++ arg ++ "\x27\n")
        ∧ ∃ pre post : String,
            (main sys log2 sprintf arg0 [arg]).stderr = pre ++ arg ++ post)
      ∧ (∀ err : String, sys.isNotExist arg = false → sys.openFile arg = Except.error err →
        main sys log2 sprintf arg0 [arg]
            = Run.exit 2 "" (sys.base arg0 ++ ": Error opening file: " ++ err ++ "\n")) := by
  rw [main_file sys log2 sprintf arg0 arg hne hdash]
  refine ⟨fun hnot => ?_, fun err hex hopen => ?_⟩
  · rw [hnot, if_pos rfl]
    exact ⟨rfl, sys.base arg0 ++ ": File not found: \x27", "\x27\n", rfl⟩
  · rw [hex, hopen]
    rfl

/-- C14: the file errors of `main` on the single argument that is the empty
string, which does not begin with `-` and names no file.  Whatever the
environment, the program panics at `os.Args[1][0]` before `os.Stat` and
`os.Open`: it ends neither by the exit of line 83 with the file-not-found
message nor by the exit of line 89 with the error-opening message. -/
theorem file_errors_empty_argument (sys : Sys) (log2 : K → K)
    (sprintf : String → K → String) (arg0 : String) :
    ("" : String).data.head? ≠ some '-'
      ∧ main sys log2 sprintf arg0 [""] = Run.panicked indexPanic
      ∧ main sys log2 sprintf arg0 [""]
          ≠ Run.exit 2 "" (sys.base arg0 ++ ": File not found: \x27" ++ "" ++ "\x27\n")
      ∧ ∀ err : String, main sys log2 sprintf arg0 [""]
          ≠ Run.exit 2 "" (sys.base arg0 ++ ": Error opening file: " ++ err ++ "\n") := by
  rw [main_panics_on_empty]
  exact ⟨by decide, rfl, fun e => Run.noConfusion e, fun err e => Run.noConfusion e⟩

/-- The read loop on reads that go on up to a failing read. -/
theorem readLoop_fatal (me : String) (pre : List ReadResult) (r : ReadResult)
    (rest : List ReadResult) (hpre : ∀ p ∈ pre, p.data ≠ [] ∧ fatal p.err = false)
    (hr : fatal r.err = true) (s : Counters) :
    readLoop me (pre ++ r :: rest) s = ReadOutcome.exit 1 "" (errorReading me r.err) := by
  induction pre generalizing s with
  | nil => simp [readLoop, hr]
  | cons p ps ih =>
    have hp := hpre p (List.mem_cons_self _ _)
    have hn : p.n ≠ 0 := by simpa [ReadResult.n] using hp.1
    simp only [List.cons_append, readLoop, hp.2, hn, if_false, Bool.false_eq_true]
    exact ih (fun q hq => hpre q (List.mem_cons_of_mem _ hq)) _

theorem mainRead_fatal (me : String) (pre : List ReadResult) (r : ReadResult)
    (rest : List ReadResult) (hpre : ∀ p ∈ pre, p.data ≠ [] ∧ fatal p.err = false)
    (hr : fatal r.err = true) :
    mainRead me (pre ++ r :: rest) = ReadOutcome.exit 1 "" (errorReading me r.err) := by
  rcases pre with _ | ⟨p, ps⟩
  · simp [mainRead, hr]
  · have hp := hpre p (List.mem_cons_self _ _)
    have hn : p.n ≠ 0 := by simpa [ReadResult.n] using hp.1
    simp only [List.cons_append, mainRead, hp.2, hn, if_false, Bool.false_eq_true]
    exact readLoop_fatal me ps r rest (fun q hq => hpre q (List.mem_cons_of_mem _ hq)) hr _

theorem fatal_eofAsNil (r : ReadResult) : fatal (eofAsNil r).err = fatal r.err := by
  rcases r with ⟨data, _ | _ | msg⟩ <;> rfl

theorem errorReading_eofAsNil (me : String) (r : ReadResult) (h : fatal r.err = true) :
    errorReading me (eofAsNil r).err = errorReading me r.err := by
  rcases r with ⟨data, _ | _ | msg⟩
  · rfl
  · exact absurd h (Bool.false_ne_true)
  · rfl

theorem readLoop_eofAsNil (me : String) (reads : List ReadResult) (s : Counters) :
    readLoop me (reads.map eofAsNil) s = readLoop me reads s := by
  induction reads generalizing s with
  | nil => rfl
  | cons r rest ih =>
    simp only [List.map_cons, readLoop, fatal_eofAsNil]
    by_cases hf : fatal r.err = true
    · simp only [hf, if_true, errorReading_eofAsNil me r hf]
    · have hn : (eofAsNil r).n = r.n := rfl
      have hd : (eofAsNil r).data = r.data := rfl
      rw [if_neg hf, if_neg hf, hn, hd, ih]

theorem mainRead_eofAsNil (me : String) (reads : List ReadResult) :
    mainRead me (reads.map eofAsNil) = mainRead me reads := by
  rcases reads with _ | ⟨r, rest⟩
  · rfl
  · simp only [List.map_cons, mainRead, fatal_eofAsNil]
    by_cases hf : fatal r.err = true
    · simp only [hf, if_true, errorReading_eofAsNil me r hf]
    · have hn : (eofAsNil r).n = r.n := rfl
      have hd : (eofAsNil r).data = r.data := rfl
      rw [if_neg hf, if_neg hf, hn, hd, readLoop_eofAsNil]

/-- C15: for every sequence of reads that go on (non-empty, without failure)
up to a read that returns an error other than end-of-stream, whatever bytes
come with it and whatever would follow, `main` ends with status 1, nothing on
standard output and the read-error message on standard error; and an
end-of-stream indication is never a failure: `main` ends in the same way when
every `io.EOF` is replaced by a nil error. -/
theorem read_failure_aborts (log2 : K → K) (sprintf : String → K → String) (me : String)
    (pre : List ReadResult) (r : ReadResult) (rest : List ReadResult)
    (hpre : ∀ p ∈ pre, p.data ≠ [] ∧ fatal p.err = false) (hr : fatal r.err = true) :
    mainRead me (pre ++ r :: rest) = ReadOutcome.exit 1 "" (errorReading me r.err)
      ∧ mainCompute log2 sprintf me (pre ++ r :: rest)
          = Run.exit 1 "" (errorReading me r.err)
      ∧ (mainCompute log2 sprintf me (pre ++ r :: rest)).status ≠ 0
      ∧ (mainCompute log2 sprintf me (pre ++ r :: rest)).stdout = ""
      ∧ fatal (some ReadErr.EOF) = false
      ∧ ∀ reads : List ReadResult,
          mainCompute log2 sprintf me (reads.map eofAsNil) = mainCompute log2 sprintf me reads := by
  have hread := mainRead_fatal me pre r rest hpre hr
  have hrun : mainCompute log2 sprintf me (pre ++ r :: rest)
      = Run.exit 1 "" (errorReading me r.err) := by
    simp only [mainCompute, mainOutcome, hread, printResult]
  refine ⟨hread, hrun, ?_, ?_, rfl, fun reads => ?_⟩
  · rw [hrun]
    exact Nat.one_ne_zero
  · rw [hrun]
    rfl
  · simp only [mainCompute, mainOutcome, mainRead_eofAsNil]

/-- Witness of C15: two bytes, and then a read that fails with one more
byte. -/
theorem read_failure_aborts_witness :
    mainCompute (Real.logb 2) (fun _ _ => "") "entropy"
        [{ data := [65, 66], err := none },
         { data := [67], err := some (ReadErr.other "input/output error") }]
      = Run.exit 1 "" "entropy: Error reading data: input/output error\n" :=
  (read_failure_aborts (Real.logb 2) (fun _ _ => "") "entropy"
    [{ data := [65, 66], err := none }]
    { data := [67], err := some (ReadErr.other "input/output error") } []
    (by decide) rfl).2.1

end Errors

/-! ## The output line -/

section Output

variable {K : Type} [LinearOrderedField K]

/-- With any `log2` that is 0 at 1, the entropy of a repeated byte is 0. -/
theorem entropy_replicate (log2 : K → K) (hlog : log2 1 = 0) (b : Byte) (n : Nat)
    (hn : 1 ≤ n) : entropy log2 (tallyChunk initCounters (List.replicate n b)) = 0 := by
  have hn0 : ((n : Nat) : K) ≠ 0 := Nat.cast_ne_zero.mpr (by omega)
  rw [entropy_tally, neg_eq_zero]
  refine Finset.sum_eq_zero fun v _ => ?_
  rw [List.length_replicate, occurrences, List.count_replicate]
  by_cases hbv : b = v
  · subst hbv
    simp only [beq_self_eq_true, if_true, div_self hn0]
    rw [if_pos one_pos, hlog, mul_zero]
  · have hbeq : (b == v) = false := by simpa using hbv
    simp [hbeq]

/-- The formatting of the number zero at precision 2, given its rendering. -/
theorem formatWithCommas_zero (sprintf : String → K → String)
    (h2 : sprintf "%.2f" 0 = "0.00") : formatWithCommas sprintf 0 2 = "0.00" := by
  have h := formatWithCommas_point sprintf 0 2 0 "00" (by decide) h2
  rw [h]
  decide

/-- C16: for every byte value `b` and every `n ≥ 1`, on the input `b` repeated
`n` times, `main` writes the line
`0.00 bits (0.00 bytes) = 0.0000% of <c> bytes (0.0000 bits/byte)` with `<c>`
being `formatIntWithCommas(n)`, and returns; the logarithm of 1 being 0 and the
renderings of zero by `%.2f` and `%.4f` being `0.00` and `0.0000`.  With
`n = 4` the line has `4` for `<c>`. -/
theorem repeated_byte_line (log2 : K → K) (sprintf : String → K → String) (me : String)
    (reads : List ReadResult) (b : Byte) (n : Nat) (hn : 1 ≤ n)
    (h : Delivers reads (List.replicate n b)) (hlog : log2 1 = 0)
    (h2 : sprintf "%.2f" 0 = "0.00") (h4 : sprintf "%.4f" 0 = "0.0000") :
    mainCompute log2 sprintf me reads
        = Run.exit 0 ("0.00 bits (0.00 bytes) = 0.0000% of "
            ++ formatIntWithCommas (n : Int) ++ " bytes (0.0000 bits/byte)\n") ""
      ∧ (n = 4 → mainCompute log2 sprintf me reads
        = Run.exit 0 "0.00 bits (0.00 bytes) = 0.0000% of 4 bytes (0.0000 bits/byte)\n" "") := by
  have hne : List.replicate n b ≠ [] := by
    intro h0
    have := congrArg List.length h0
    simp at this
    omega
  have hrun : mainCompute log2 sprintf me reads
      = Run.exit 0 ("0.00 bits (0.00 bytes) = 0.0000% of "
          ++ formatIntWithCommas (n : Int) ++ " bytes (0.0000 bits/byte)\n") "" := by
    simp only [mainCompute, mainOutcome_delivers log2 me h hne, entropy_replicate log2 hlog b n hn,
      printResult, outputLine, totalBits, totalBytes, percentage, zero_mul, zero_div,
      formatWithCommas_zero sprintf h2, h4, List.length_replicate]
    have hA : "0.00" ++ " bits (" ++ "0.00" ++ " bytes) = " ++ "0.0000" ++ "% of "
        = "0.00 bits (0.00 bytes) = 0.0000% of " := by decide
    have hB : " bytes (" ++ ("0.0000" ++ " bits/byte)\n") = " bytes (0.0000 bits/byte)\n" := by
      decide
    rw [hA]
    simp only [String.append_assoc]
    rw [hB]
  refine ⟨hrun, fun h4n => ?_⟩
  rw [hrun, h4n]
  rfl

/-- Witness of C16: the input `AAAA`. -/
theorem repeated_byte_line_witness :
    mainCompute (fun _ : ℚ => (0 : ℚ))
        (fun format _ => if format = "%.2f" then "0.00" else "0.0000") "entropy"
        [{ data := [65, 65, 65, 65], err := none }]
      = Run.exit 0 "0.00 bits (0.00 bytes) = 0.0000% of 4 bytes (0.0000 bits/byte)\n" "" :=
  (repeated_byte_line (fun _ : ℚ => (0 : ℚ))
    (fun format _ => if format = "%.2f" then "0.00" else "0.0000") "entropy"
    [{ data := [65, 65, 65, 65], err := none }] 65 4 (by decide)
    (delivers_single _ (by decide)) rfl (by decide) (by decide)).2 rfl

/-- C17: for every non-empty input, with `e` the entropy and `n` the byte
count with which `main` reaches its `Printf`, the line that `main` writes is
built from these numbers: the total bits `e * n` and the total bytes
`e * n / 8`, both formatted by `formatWithCommas` at precision 2, the
percentage `e / 8 * 100` and `e` itself under `%.4f`, and
`formatIntWithCommas(n)`.  Over the reals the total bytes are the total bits
divided by 8, the percentage is 100 times the ratio of the total bytes to `n`,
it lies in `[0, 100]`, and the total bytes do not exceed `n`. -/
theorem printf_quantities (sprintf : String → ℝ → String) (me : String)
    (reads : List ReadResult) (bs : List Byte) (h : Delivers reads bs) (hne : bs ≠ []) :
    ∃ e bits bytes pct : ℝ,
      mainOutcome (Real.logb 2) me reads = Outcome.result e bs.length
      ∧ mainCompute (Real.logb 2) sprintf me reads
          = Run.exit 0
              (formatWithCommas sprintf bits 2 ++ " bits ("
                ++ formatWithCommas sprintf bytes 2 ++ " bytes) = "
                ++ sprintf "%.4f" pct ++ "% of "
                ++ formatIntWithCommas (bs.length : Int) ++ " bytes ("
                ++ sprintf "%.4f" e ++ " bits/byte)\n") ""
      ∧ bits = e * (bs.length : ℝ)
      ∧ bytes = bits / 8
      ∧ pct = e / 8 * 100
      ∧ pct = 100 * (bytes / (bs.length : ℝ))
      ∧ 0 ≤ pct ∧ pct ≤ 100
      ∧ 0 ≤ bytes ∧ bytes ≤ (bs.length : ℝ) := by
  have hpos : (0 : ℝ) < (bs.length : ℝ) := length_cast_pos hne
  have h0 := entropy_real_nonneg hne
  have h8 := entropy_real_le hne
  refine ⟨entropy (Real.logb 2) (tallyChunk initCounters bs),
    entropy (Real.logb 2) (tallyChunk initCounters bs) * (bs.length : ℝ),
    entropy (Real.logb 2) (tallyChunk initCounters bs) * (bs.length : ℝ) / 8,
    entropy (Real.logb 2) (tallyChunk initCounters bs) / 8 * 100,
    mainOutcome_delivers _ me h hne, ?_, rfl, rfl, rfl, ?_, ?_, ?_, ?_, ?_⟩
  · simp only [mainCompute, mainOutcome_delivers _ me h hne, printResult, outputLine,
      totalBits, totalBytes, percentage]
  · field_simp
    ring
  · positivity
  · linarith
  · positivity
  · have : entropy (Real.logb 2) (tallyChunk initCounters bs) * (bs.length : ℝ)
        ≤ 8 * (bs.length : ℝ) := mul_le_mul_of_nonneg_right h8 hpos.le
    linarith

/-- Witness of C17: the input `AB` read in one chunk, with a rendering that
shows the format it was given. -/
theorem printf_quantities_witness :
    ∃ e bits bytes pct : ℝ,
      mainOutcome (Real.logb 2) "entropy" [{ data := [65, 66], err := none }]
          = Outcome.result e 2
      ∧ mainCompute (Real.logb 2) (fun format _ => format) "entropy"
          [{ data := [65, 66], err := none }]
          = Run.exit 0
              (formatWithCommas (fun format _ => format) bits 2 ++ " bits ("
                ++ formatWithCommas (fun format _ => format) bytes 2 ++ " bytes) = "
                ++ "%.4f" ++ "% of " ++ formatIntWithCommas ((2 : Nat) : Int) ++ " bytes ("
                ++ "%.4f" ++ " bits/byte)\n") ""
      ∧ bits = e * ((2 : Nat) : ℝ)
      ∧ bytes = bits / 8
      ∧ pct = e / 8 * 100
      ∧ pct = 100 * (bytes / ((2 : Nat) : ℝ))
      ∧ 0 ≤ pct ∧ pct ≤ 100
      ∧ 0 ≤ bytes ∧ bytes ≤ ((2 : Nat) : ℝ) :=
  printf_quantities (fun format _ => format) "entropy"
    [{ data := [65, 66], err := none }] [65, 66] (delivers_single _ (by decide)) (by decide)

end Output

end Entropy
